import Mathlib

set_option linter.unnecessarySeqFocus false
set_option linter.unreachableTactic false
set_option linter.unusedTactic false
set_option linter.unusedVariables false

/-
Verification of the analysis core of the ebpf-verifier repository.

The embedding follows src/src/crab/interval.hpp and src/src/crab/cfg.hpp.
Machine numbers (number_t, an arbitrary-precision integer from
crab/bignums.hpp) are embedded as Int; fallible operations (CRAB_ERROR call
sites) return Except.  Definitions that embed a function whose body is not in
the source excerpt carry a doc comment starting with "Modelled from the
spec:".
-/

namespace crab

/-- Error kinds raised through CRAB_ERROR by the crab core (spec section 7). -/
inductive CrabError where
  | UnknownLabel
  | DuplicateLabel
  | NoExit
  | UndefinedArithmetic
  | DivisionByZero
deriving DecidableEq, Repr

/-- A point on the extended integer line (interval.hpp, class bound_t).  The
C++ object is a flag _is_infinite and a number _n; every public constructor
produces a finite bound and the private constructor normalizes _n of an
infinite bound to 1 or -1, so the reachable values are exactly the two
infinities and the finite numbers, which we take as constructors. -/
inductive bound_t where
  | minf : bound_t
  | pinf : bound_t
  | fin : ℤ → bound_t
deriving DecidableEq, Repr

/-- View of the _is_infinite field of bound_t. -/
def bound_t.isInf : bound_t → Bool
  | .minf => true
  | .pinf => true
  | .fin _ => false

/-- View of the _n field of bound_t (after constructor normalization). -/
def bound_t.num : bound_t → ℤ
  | .minf => -1
  | .pinf => 1
  | .fin n => n

/-- The private constructor bound_t(bool is_infinite, number_t n): an
infinite bound keeps only the sign of n. -/
def bound_t.mkB (inf : Bool) (n : ℤ) : bound_t :=
  if inf then (if n > 0 then .pinf else .minf) else .fin n

/-- bound_t::operator<= (interval.hpp lines 144-152). -/
def bound_t.le (a x : bound_t) : Bool :=
  if a.isInf != x.isInf then
    (if a.isInf then decide (a.num < 0) else decide (x.num > 0))
  else decide (a.num ≤ x.num)

/-- bound_t::operator>= (interval.hpp lines 154-162). -/
def bound_t.ge (a x : bound_t) : Bool :=
  if a.isInf != x.isInf then
    (if a.isInf then decide (a.num > 0) else decide (x.num < 0))
  else decide (a.num ≥ x.num)

/-- bound_t::operator<: !(operator>=). -/
def bound_t.lt (a x : bound_t) : Bool := ! a.ge x

/-- bound_t::operator>: !(operator<=). -/
def bound_t.gt (a x : bound_t) : Bool := ! a.le x

/-- bound_t::operator- (unary): bound_t(_is_infinite, -_n). -/
def bound_t.neg (a : bound_t) : bound_t := bound_t.mkB a.isInf (-a.num)

/-- bound_t::operator+ (interval.hpp lines 75-87); the -oo + +oo case raises
through CRAB_ERROR. -/
def bound_t.add (a x : bound_t) : Except CrabError bound_t :=
  if !a.isInf && !x.isInf then .ok (.fin (a.num + x.num))
  else if !a.isInf && x.isInf then .ok x
  else if a.isInf && !x.isInf then .ok a
  else if a.num = x.num then .ok a
  else .error .UndefinedArithmetic

/-- bound_t::operator- (binary): operator+(x.operator-()). -/
def bound_t.sub (a x : bound_t) : Except CrabError bound_t := a.add x.neg

/-- bound_t::operator* (interval.hpp lines 95-102). -/
def bound_t.mul (a x : bound_t) : bound_t :=
  if x.num = 0 then x
  else if a.num = 0 then a
  else bound_t.mkB (a.isInf || x.isInf) (a.num * x.num)

/-- bound_t::operator/ (interval.hpp lines 106-128) without the leading
division-by-zero test; the finite/finite case is the truncating division of
the underlying big-integer library. -/
def bound_t.divT (a x : bound_t) : bound_t :=
  if !a.isInf && !x.isInf then bound_t.mkB false (a.num.tdiv x.num)
  else if !a.isInf && x.isInf then
    (if a.num > 0 then x else if a.num = 0 then a else x.neg)
  else if a.isInf && !x.isInf then
    (if x.num > 0 then a else a.neg)
  else bound_t.mkB true (a.num * x.num)

/-- bound_t::operator/: x._n == 0 raises DivisionByZero, otherwise the
branches of divT apply. -/
def bound_t.div (a x : bound_t) : Except CrabError bound_t :=
  if x.num = 0 then .error .DivisionByZero else .ok (a.divT x)

/-- bound_t::min(x, y). -/
def bound_t.bmin (x y : bound_t) : bound_t := if x.le y then x else y

/-- bound_t::max(x, y). -/
def bound_t.bmax (x y : bound_t) : bound_t := if x.le y then y else x

/-- bound_t::min(x, y, z, t) = min(x, min(y, min(z, t))). -/
def bound_t.bmin4 (x y z t : bound_t) : bound_t := x.bmin (y.bmin (z.bmin t))

/-- bound_t::max(x, y, z, t) = max(x, max(y, max(z, t))). -/
def bound_t.bmax4 (x y z t : bound_t) : bound_t := x.bmax (y.bmax (z.bmax t))

/-- bound_t::number(): the finite value if any. -/
def bound_t.number : bound_t → Option ℤ
  | .fin n => some n
  | _ => none

/-- A closed interval of bounds (interval.hpp, class interval_t). -/
structure interval_t where
  lb : bound_t
  ub : bound_t
deriving DecidableEq, Repr

/-- interval_t::bottom(): the private default constructor yields the
canonical empty interval [0, -1]. -/
def interval_t.bottom : interval_t := ⟨.fin 0, .fin (-1)⟩

/-- interval_t::top() = [-oo, +oo]. -/
def interval_t.top : interval_t := ⟨.minf, .pinf⟩

/-- The two-bound constructor interval_t(lb, ub) (interval.hpp lines
219-224): lb > ub is normalized to the canonical bottom. -/
def interval_t.of (l u : bound_t) : interval_t :=
  if l.gt u then interval_t.bottom else ⟨l, u⟩

/-- interval_t::is_bottom(): _lb > _ub. -/
def interval_t.is_bottom (i : interval_t) : Bool := i.lb.gt i.ub

/-- interval_t::is_top(). -/
def interval_t.is_top (i : interval_t) : Bool := i.lb.isInf && i.ub.isInf

/-- interval_t::operator== (interval.hpp lines 255-261). -/
def interval_t.eqI (i x : interval_t) : Bool :=
  if i.is_bottom then x.is_bottom
  else decide (i.lb = x.lb) && decide (i.ub = x.ub)

/-- interval_t::operator<= (inclusion, interval.hpp lines 265-273). -/
def interval_t.leI (i x : interval_t) : Bool :=
  if i.is_bottom then true
  else if x.is_bottom then false
  else x.lb.le i.lb && i.ub.le x.ub

/-- interval_t::operator| (join). -/
def interval_t.join (i x : interval_t) : interval_t :=
  if i.is_bottom then x
  else if x.is_bottom then i
  else interval_t.of (i.lb.bmin x.lb) (i.ub.bmax x.ub)

/-- interval_t::operator& (meet). -/
def interval_t.meet (i x : interval_t) : interval_t :=
  if i.is_bottom || x.is_bottom then interval_t.bottom
  else interval_t.of (i.lb.bmax x.lb) (i.ub.bmin x.ub)

/-- interval_t::widen (interval.hpp lines 293-302). -/
def interval_t.widen (i x : interval_t) : interval_t :=
  if i.is_bottom then x
  else if x.is_bottom then i
  else
    interval_t.of (if x.lb.lt i.lb then .minf else i.lb)
      (if i.ub.lt x.ub then .pinf else i.ub)

/-- interval_t::operator+ (interval.hpp lines 326-332). -/
def interval_t.add (i x : interval_t) : Except CrabError interval_t :=
  if i.is_bottom || x.is_bottom then .ok interval_t.bottom
  else do
    let l ← i.lb.add x.lb
    let u ← i.ub.add x.ub
    return interval_t.of l u

/-- interval_t::operator- (unary). -/
def interval_t.negI (i : interval_t) : interval_t :=
  if i.is_bottom then interval_t.bottom else interval_t.of i.ub.neg i.lb.neg

/-- interval_t::operator- (binary, interval.hpp lines 344-350). -/
def interval_t.sub (i x : interval_t) : Except CrabError interval_t :=
  if i.is_bottom || x.is_bottom then .ok interval_t.bottom
  else do
    let l ← i.lb.sub x.ub
    let u ← i.ub.sub x.lb
    return interval_t.of l u

/-- interval_t::operator* (interval.hpp lines 354-364). -/
def interval_t.mul (i x : interval_t) : interval_t :=
  if i.is_bottom || x.is_bottom then interval_t.bottom
  else
    interval_t.of
      (bound_t.bmin4 (i.lb.mul x.lb) (i.lb.mul x.ub) (i.ub.mul x.lb) (i.ub.mul x.ub))
      (bound_t.bmax4 (i.lb.mul x.lb) (i.lb.mul x.ub) (i.ub.mul x.lb) (i.ub.mul x.ub))

/-- interval_t::singleton(). -/
def interval_t.singleton (i : interval_t) : Option ℤ :=
  if !i.is_bottom && decide (i.lb = i.ub) then i.lb.number else none

/-- interval_t::operator[] (membership of a number). -/
def interval_t.mem (i : interval_t) (n : ℤ) : Bool :=
  if i.is_bottom then false else i.lb.le (.fin n) && (bound_t.fin n).le i.ub

/-- interval_t::UDiv (interval.hpp lines 399-405): bottom absorbing, top on
every other input. -/
def interval_t.UDiv (i x : interval_t) : interval_t :=
  if i.is_bottom || x.is_bottom then interval_t.bottom else interval_t.top

/-- Modelled from the spec: the bodies of interval_t::SRem, URem, And, Or,
Xor, Shl, LShr and AShr are not in the source excerpt (interval.hpp lines
407-422 only declare them).  Spec section 4.2: "result is top unless both
operands are singletons, in which case the exact value is returned"; bottom
operands propagate bottom.  f is the exact concrete operation of the
respective instruction. -/
def interval_t.liftSpecBin (f : ℤ → ℤ → ℤ) (i x : interval_t) : interval_t :=
  if i.is_bottom || x.is_bottom then interval_t.bottom
  else
    match i.singleton, x.singleton with
    | some m, some n => interval_t.of (.fin (f m n)) (.fin (f m n))
    | _, _ => interval_t.top

/-- Modelled from the spec: signed remainder, exact on singletons. -/
def interval_t.SRem (i x : interval_t) : interval_t :=
  interval_t.liftSpecBin Int.tmod i x

/-- Modelled from the spec: unsigned remainder, exact on singletons. -/
def interval_t.URem (i x : interval_t) : interval_t :=
  interval_t.liftSpecBin Int.emod i x

/-- Modelled from the spec: bitwise conjunction, exact on singletons. -/
def interval_t.And (i x : interval_t) : interval_t :=
  interval_t.liftSpecBin Int.land i x

/-- Modelled from the spec: bitwise disjunction, exact on singletons. -/
def interval_t.Or (i x : interval_t) : interval_t :=
  interval_t.liftSpecBin Int.lor i x

/-- Modelled from the spec: bitwise exclusive or, exact on singletons. -/
def interval_t.Xor (i x : interval_t) : interval_t :=
  interval_t.liftSpecBin Int.xor i x

/-- Modelled from the spec: shift left, exact on singletons. -/
def interval_t.Shl (i x : interval_t) : interval_t :=
  interval_t.liftSpecBin (fun m n => m * 2 ^ n.toNat) i x

/-- Modelled from the spec: logical shift right, exact on singletons. -/
def interval_t.LShr (i x : interval_t) : interval_t :=
  interval_t.liftSpecBin (fun m n => m / 2 ^ n.toNat) i x

/-- Modelled from the spec: arithmetic shift right, exact on singletons. -/
def interval_t.AShr (i x : interval_t) : interval_t :=
  interval_t.liftSpecBin (fun m n => m / 2 ^ n.toNat) i x

/-- Endpoint-quotient formula for a divisor interval that does not contain
zero: the hull of the four endpoint quotients, computed with the source's
bound_t::operator/.  Part of the spec-modelled interval_t::operator/. -/
def interval_t.divNZ (i x : interval_t) : interval_t :=
  if i.is_bottom || x.is_bottom then interval_t.bottom
  else
    interval_t.of
      (bound_t.bmin4 (i.lb.divT x.lb) (i.lb.divT x.ub) (i.ub.divT x.lb) (i.ub.divT x.ub))
      (bound_t.bmax4 (i.lb.divT x.lb) (i.lb.divT x.ub) (i.ub.divT x.lb) (i.ub.divT x.ub))

/-- Modelled from the spec: the body of interval_t::operator/ is not in the
source excerpt (interval.hpp line 368 only declares it).  Spec section 4.2:
standard interval arithmetic; a divisor spanning zero is split into its
negative part [lb, -1] and positive part [1, ub], each divided and the
results rejoined, and the result is top on a zero-containing divisor when no
more precise answer is derivable (both parts empty, the divisor [0,0]).  The
endpoint quotients use the source's bound_t::operator/. -/
def interval_t.div (i x : interval_t) : interval_t :=
  if i.is_bottom || x.is_bottom then interval_t.bottom
  else if x.mem 0 then
    (if (interval_t.of x.lb (.fin (-1))).is_bottom &&
        (interval_t.of (.fin 1) x.ub).is_bottom then interval_t.top
     else
       (i.divNZ (interval_t.of x.lb (.fin (-1)))).join
         (i.divNZ (interval_t.of (.fin 1) x.ub)))
  else i.divNZ x

/-- Labels are opaque identity tokens (crab/types.hpp is not part of the
excerpt; spec section 3.3 requires only equality and hashing), embedded as
numbers. -/
abbrev label_t := ℕ

/-- Statements are an opaque movable payload (the Language template
parameter of basic_block), embedded as opaque tokens. -/
abbrev statement_t := ℕ

/-- basic_block (cfg.hpp lines 53-182): label, statement vector and the two
adjacency sequences m_prev and m_next. -/
structure basic_block where
  m_label : label_t
  m_ts : List statement_t
  m_prev : List label_t
  m_next : List label_t
deriving DecidableEq, Repr

/-- basic_block::insert_adjacent (cfg.hpp lines 82-86): push_back unless the
label is already present. -/
def insert_adjacent (c : List label_t) (e : label_t) : List label_t :=
  if e ∈ c then c else c ++ [e]

/-- basic_block::remove_adjacent (cfg.hpp lines 88-92): erase-remove of
every occurrence. -/
def remove_adjacent (c : List label_t) (e : label_t) : List label_t :=
  if e ∈ c then c.filter (fun x => x != e) else c

/-- basic_block::move_back (cfg.hpp lines 148-151): the destination receives
other's statements at the back through the std::move algorithm; other's
vector keeps its size, its elements left in a moved-from state (for an
opaque trivial payload, their old values) - it is not cleared. -/
def basic_block.move_back (b other : basic_block) : basic_block × basic_block :=
  ({ b with m_ts := b.m_ts ++ other.m_ts }, other)

/-- A fresh empty block, basic_block(label). -/
def basic_block.new (l : label_t) : basic_block := ⟨l, [], [], []⟩

/-- cfg_t (cfg.hpp lines 251-502): entry label, optional exit label and the
label-to-block map, embedded as an association list with unique keys. -/
structure cfg_t where
  m_entry : label_t
  m_exit : Option label_t
  m_blocks : List (label_t × basic_block)
deriving DecidableEq, Repr

/-- Lookup in an association list of blocks. -/
def assocFind : List (label_t × basic_block) → label_t → Option basic_block
  | [], _ => none
  | p :: r, l => if p.1 = l then some p.2 else assocFind r l

/-- m_blocks.find(l). -/
def cfg_t.find (g : cfg_t) (l : label_t) : Option basic_block :=
  assocFind g.m_blocks l

/-- Mutation of the block of one label through a get_node reference. -/
def cfg_t.upd (g : cfg_t) (t : label_t) (f : basic_block → basic_block) : cfg_t :=
  { g with m_blocks := g.m_blocks.map (fun p => if p.1 = t then (p.1, f p.2) else p) }

/-- next_nodes(l): successor labels; empty when the label is absent (the C++
get_node would raise UnknownLabel instead). -/
def cfg_t.succs (g : cfg_t) (l : label_t) : List label_t :=
  ((g.find l).map basic_block.m_next).getD []

/-- prev_nodes(l): predecessor labels. -/
def cfg_t.preds (g : cfg_t) (l : label_t) : List label_t :=
  ((g.find l).map basic_block.m_prev).getD []

/-- get_node(a) >> get_node(b) (cfg.hpp lines 136-139): b enters a's
successor sequence and a enters b's predecessor sequence.  Both get_node
calls must succeed, so the edge is added only when both labels are present. -/
def cfg_t.connect (g : cfg_t) (a b : label_t) : cfg_t :=
  if (g.find a).isSome && (g.find b).isSome then
    (g.upd a (fun bb => { bb with m_next := insert_adjacent bb.m_next b })).upd b
      (fun bb => { bb with m_prev := insert_adjacent bb.m_prev a })
  else g

/-- get_node(a) -= get_node(b) (cfg.hpp lines 142-145). -/
def cfg_t.disconnect (g : cfg_t) (a b : label_t) : cfg_t :=
  if (g.find a).isSome && (g.find b).isSome then
    (g.upd a (fun bb => { bb with m_next := remove_adjacent bb.m_next b })).upd b
      (fun bb => { bb with m_prev := remove_adjacent bb.m_prev a })
  else g

/-- cfg_t(entry) (cfg.hpp line 308). -/
def cfg_t.mk1 (e : label_t) : cfg_t := ⟨e, none, [(e, basic_block.new e)]⟩

/-- cfg_t(entry, exit) (cfg.hpp lines 310-313); the second emplace does
nothing when the two labels coincide. -/
def cfg_t.mk2 (e x : label_t) : cfg_t :=
  ⟨e, some x,
    if x = e then [(e, basic_block.new e)]
    else [(e, basic_block.new e), (x, basic_block.new x)]⟩

/-- cfg_t::has_exit(). -/
def cfg_t.has_exit (g : cfg_t) : Bool := g.m_exit.isSome

/-- cfg_t::exit() (cfg.hpp lines 323-327): raises when no exit was set. -/
def cfg_t.exitE (g : cfg_t) : Except CrabError label_t :=
  match g.m_exit with
  | some x => .ok x
  | none => .error .NoExit

/-- Modelled from the spec: the body of cfg_t::remove is not in the source
excerpt (cfg.hpp line 373 only declares it).  Spec section 4.4: removes the
block and all edges incident to it from neighboring blocks' adjacency sets,
fails silently when the label is absent, and the entry may not be removed. -/
def cfg_t.remove (g : cfg_t) (l : label_t) : cfg_t :=
  if l = g.m_entry then g
  else if (g.find l).isSome then
    { g with
      m_blocks :=
        (g.m_blocks.filter (fun p => p.1 != l)).map
          (fun p =>
            (p.1,
              { p.2 with
                m_prev := remove_adjacent p.2.m_prev l
                m_next := remove_adjacent p.2.m_next l })) }
  else g

/-- parent.move_back(cur) performed through get_node references: the parent
block receives cur's statements at the back; cur's block keeps its vector
(moved-from elements). -/
def cfg_t.move_back_l (g : cfg_t) (parent cur : label_t) : cfg_t :=
  g.upd parent
    (fun bb => { bb with m_ts := bb.m_ts ++ ((g.find cur).map basic_block.m_ts).getD [] })

/-- The merge rewrite inside cfg_t::merge_blocks_rec (cfg.hpp lines
464-470): move cur's statements to its only parent, remove cur from the
graph, and connect the parent to cur's only child. -/
def cfg_t.merge_step (g : cfg_t) (cur parent child : label_t) : cfg_t :=
  ((g.move_back_l parent cur).remove cur).connect parent child

/-- cfg_t::merge_blocks_rec (cfg.hpp lines 453-478).  The C++ recursion
carries no structural measure, so the embedding takes explicit fuel; the
theorems below either hold for every fuel or are evaluated at a fuel under
which the recursion completes on the given graph. -/
def cfg_t.merge_blocks_rec (fuel : ℕ) (g : cfg_t) (cur : label_t)
    (visited : List label_t) : cfg_t × List label_t :=
  match fuel with
  | 0 => (g, visited)
  | fuel + 1 =>
    if cur ∈ visited then (g, visited)
    else
      if (g.succs cur).length = 1 ∧ (g.preds cur).length = 1 ∧
          (g.succs ((g.preds cur).headD 0)).length = 1 then
        cfg_t.merge_blocks_rec fuel
          (g.merge_step cur ((g.preds cur).headD 0) ((g.succs cur).headD 0))
          ((g.succs cur).headD 0) ((visited ++ [cur]).filter (fun x => x != cur))
      else
        (g.succs cur).foldl (fun acc n => cfg_t.merge_blocks_rec fuel acc.1 n acc.2)
          (g, visited ++ [cur])

/-- Fuel under which merge_blocks_rec completes on the concrete graphs
evaluated below. -/
def cfg_t.mergeFuel (g : cfg_t) : ℕ :=
  (g.m_blocks.length + 1) * (g.m_blocks.length + 1) * 4 + 4

/-- cfg_t::merge_blocks (cfg.hpp lines 482-485): DFS from the entry with an
empty visited set. -/
def cfg_t.merge_blocks (g : cfg_t) : cfg_t :=
  (cfg_t.merge_blocks_rec g.mergeFuel g g.m_entry []).1

/-- cfg_rev_t (cfg.hpp lines 582-701): a non-owning view over one cfg_t. -/
structure cfg_rev_t where
  _cfg : cfg_t
deriving DecidableEq, Repr

/-- The cfg_rev_t(cfg_t&) constructor (cfg.hpp lines 630-637): it only
builds per-block views and has no error path, so it always succeeds. -/
def cfg_rev_t.construct (g : cfg_t) : Except CrabError cfg_rev_t := .ok ⟨g⟩

/-- cfg_rev_t::entry() (cfg.hpp lines 643-647): raises when the underlying
cfg has no exit, otherwise the underlying exit. -/
def cfg_rev_t.entry (r : cfg_rev_t) : Except CrabError label_t :=
  if r._cfg.has_exit then r._cfg.exitE else .error .NoExit

/-- cfg_rev_t::exit() (cfg.hpp line 689): the underlying entry, with no
exit check. -/
def cfg_rev_t.exit (r : cfg_rev_t) : label_t := r._cfg.m_entry

/-- cfg_rev_t::has_exit() (cfg.hpp line 687): constantly true. -/
def cfg_rev_t.has_exit (_ : cfg_rev_t) : Bool := true

/-- cfg_rev_t::next_nodes = underlying prev_nodes (cfg.hpp line 649). -/
def cfg_rev_t.succs (r : cfg_rev_t) (l : label_t) : List label_t := r._cfg.preds l

/-- cfg_rev_t::prev_nodes = underlying next_nodes (cfg.hpp line 651). -/
def cfg_rev_t.preds (r : cfg_rev_t) (l : label_t) : List label_t := r._cfg.succs l

/-- cfg_rev_t::simplify() (cfg.hpp line 700): an empty body. -/
def cfg_rev_t.simplify (r : cfg_rev_t) : cfg_rev_t := r

/-- One edge mutation on blocks of a CFG: operator>> or operator-=. -/
inductive edgeOp where
  | conn (a b : label_t)
  | disc (a b : label_t)
deriving DecidableEq, Repr

/-- Apply one edge mutation. -/
def cfg_t.applyOp (g : cfg_t) : edgeOp → cfg_t
  | .conn a b => g.connect a b
  | .disc a b => g.disconnect a b

/-- Apply a sequence of edge mutations. -/
def cfg_t.runOps (g : cfg_t) (ops : List edgeOp) : cfg_t :=
  ops.foldl cfg_t.applyOp g

/-- Concrete graph: entry 0 with edge 0 -> 1, and 1 -> 2, 1 -> 3.  Block 1
has exactly one predecessor, its predecessor has exactly one successor, and
block 1 has two successors of its own. -/
def exFork : cfg_t :=
  ⟨0, none,
    [(0, ⟨0, [10], [], [1]⟩), (1, ⟨1, [11], [0], [2, 3]⟩),
     (2, ⟨2, [12], [1], []⟩), (3, ⟨3, [13], [1], []⟩)]⟩

/-- Concrete graph: entry 0 -> 1 -> 2 with block 1 set as the exit. -/
def exChain : cfg_t :=
  ⟨0, some 1,
    [(0, ⟨0, [10], [], [1]⟩), (1, ⟨1, [11], [0], [2]⟩), (2, ⟨2, [12], [1], []⟩)]⟩

/-- The widening sequence of spec section 8: y 0 = x 0 and
y (i+1) = widen (y i) (x (i+1)). -/
def wseq (x : ℕ → interval_t) : ℕ → interval_t
  | 0 => x 0
  | n + 1 => (wseq x n).widen (x (n + 1))

/-- Endpoint measure used in the stabilization proof: 3 for bottom,
otherwise one unit for each endpoint that has not yet reached its
infinity. -/
def imeasure (i : interval_t) : ℕ :=
  if i.is_bottom then 3
  else (if i.lb = .minf then 0 else 1) + (if i.ub = .pinf then 0 else 1)

/-! Order infrastructure on bounds. -/

theorem bound_t.le_refl (a : bound_t) : a.le a = true := by
  cases a <;> simp [bound_t.le, bound_t.isInf, bound_t.num]

theorem bound_t.le_trans {a b c : bound_t} (h1 : a.le b = true) (h2 : b.le c = true) :
    a.le c = true := by
  cases a <;> cases b <;> cases c <;>
    simp [bound_t.le, bound_t.isInf, bound_t.num] at h1 h2 ⊢ <;> omega

theorem bound_t.le_total (a b : bound_t) : a.le b = true ∨ b.le a = true := by
  cases a <;> cases b <;> simp [bound_t.le, bound_t.isInf, bound_t.num] <;> omega

theorem bound_t.minf_le (a : bound_t) : bound_t.minf.le a = true := by
  cases a <;> simp [bound_t.le, bound_t.isInf, bound_t.num]

theorem bound_t.le_pinf (a : bound_t) : a.le .pinf = true := by
  cases a <;> simp [bound_t.le, bound_t.isInf, bound_t.num]

theorem bound_t.gt_eq (a b : bound_t) : a.gt b = ! a.le b := rfl

theorem bound_t.ge_eq (a b : bound_t) : a.ge b = b.le a := by
  cases a <;> cases b <;> simp [bound_t.ge, bound_t.le, bound_t.isInf, bound_t.num] <;> omega

theorem bound_t.lt_eq (a b : bound_t) : a.lt b = ! b.le a := by
  rw [bound_t.lt, bound_t.ge_eq]

theorem bound_t.le_of_not_le {a b : bound_t} (h : ¬ a.le b = true) : b.le a = true := by
  rcases bound_t.le_total a b with h1 | h1
  · exact absurd h1 h
  · exact h1

theorem bound_t.bmin_le_left (x y : bound_t) : (x.bmin y).le x = true := by
  unfold bound_t.bmin
  split_ifs with h
  · exact bound_t.le_refl x
  · exact bound_t.le_of_not_le h

theorem bound_t.bmin_le_right (x y : bound_t) : (x.bmin y).le y = true := by
  unfold bound_t.bmin
  split_ifs with h
  · exact h
  · exact bound_t.le_refl y

theorem bound_t.le_bmax_left (x y : bound_t) : x.le (x.bmax y) = true := by
  unfold bound_t.bmax
  split_ifs with h
  · exact h
  · exact bound_t.le_refl x

theorem bound_t.le_bmax_right (x y : bound_t) : y.le (x.bmax y) = true := by
  unfold bound_t.bmax
  split_ifs with h
  · exact bound_t.le_refl y
  · exact bound_t.le_of_not_le h

theorem bound_t.bmin4_le_a (a b c d : bound_t) : (bound_t.bmin4 a b c d).le a = true :=
  bound_t.bmin_le_left _ _

theorem bound_t.bmin4_le_b (a b c d : bound_t) : (bound_t.bmin4 a b c d).le b = true :=
  bound_t.le_trans (bound_t.bmin_le_right _ _) (bound_t.bmin_le_left _ _)

theorem bound_t.bmin4_le_c (a b c d : bound_t) : (bound_t.bmin4 a b c d).le c = true :=
  bound_t.le_trans (bound_t.bmin_le_right _ _)
    (bound_t.le_trans (bound_t.bmin_le_right _ _) (bound_t.bmin_le_left _ _))

theorem bound_t.bmin4_le_d (a b c d : bound_t) : (bound_t.bmin4 a b c d).le d = true :=
  bound_t.le_trans (bound_t.bmin_le_right _ _)
    (bound_t.le_trans (bound_t.bmin_le_right _ _) (bound_t.bmin_le_right _ _))

theorem bound_t.a_le_bmax4 (a b c d : bound_t) : a.le (bound_t.bmax4 a b c d) = true :=
  bound_t.le_bmax_left _ _

theorem bound_t.b_le_bmax4 (a b c d : bound_t) : b.le (bound_t.bmax4 a b c d) = true :=
  bound_t.le_trans (bound_t.le_bmax_left _ _) (bound_t.le_bmax_right _ _)

theorem bound_t.c_le_bmax4 (a b c d : bound_t) : c.le (bound_t.bmax4 a b c d) = true :=
  bound_t.le_trans (bound_t.le_trans (bound_t.le_bmax_left _ _) (bound_t.le_bmax_right _ _))
    (bound_t.le_bmax_right _ _)

theorem bound_t.d_le_bmax4 (a b c d : bound_t) : d.le (bound_t.bmax4 a b c d) = true :=
  bound_t.le_trans (bound_t.le_trans (bound_t.le_bmax_right _ _) (bound_t.le_bmax_right _ _))
    (bound_t.le_bmax_right _ _)

/-! Membership lemmas. -/

theorem interval_t.mem_iff {i : interval_t} {n : ℤ} :
    i.mem n = true ↔ (i.lb.le (.fin n) = true ∧ (bound_t.fin n).le i.ub = true) := by
  constructor
  · intro h
    unfold interval_t.mem at h
    split_ifs at h with hb
    simp only [Bool.and_eq_true] at h
    exact h
  · rintro ⟨h1, h2⟩
    have hb : i.is_bottom = false := by
      unfold interval_t.is_bottom
      rw [bound_t.gt_eq, bound_t.le_trans h1 h2]
      rfl
    unfold interval_t.mem
    rw [hb]
    simp [h1, h2]

theorem interval_t.mem_of_intro {l u : bound_t} {n : ℤ}
    (h1 : l.le (.fin n) = true) (h2 : (bound_t.fin n).le u = true) :
    (interval_t.of l u).mem n = true := by
  have hle : l.le u = true := bound_t.le_trans h1 h2
  unfold interval_t.of
  rw [bound_t.gt_eq, hle]
  exact interval_t.mem_iff.2 ⟨h1, h2⟩

theorem interval_t.not_bottom_of_mem {i : interval_t} {n : ℤ} (h : i.mem n = true) :
    i.is_bottom = false := by
  rcases interval_t.mem_iff.1 h with ⟨h1, h2⟩
  unfold interval_t.is_bottom
  rw [bound_t.gt_eq, bound_t.le_trans h1 h2]
  rfl

/-! Bound addition and subtraction lemmas. -/

theorem bound_t.add_lb {c d : bound_t} {x y : ℤ}
    (h1 : c.le (.fin x) = true) (h2 : d.le (.fin y) = true) :
    ∃ l, c.add d = .ok l ∧ l.le (.fin (x + y)) = true := by
  cases c <;> cases d <;>
    simp [bound_t.add, bound_t.le, bound_t.isInf, bound_t.num] at h1 h2 ⊢ <;> omega

theorem bound_t.add_ub {c d : bound_t} {x y : ℤ}
    (h1 : (bound_t.fin x).le c = true) (h2 : (bound_t.fin y).le d = true) :
    ∃ u, c.add d = .ok u ∧ (bound_t.fin (x + y)).le u = true := by
  cases c <;> cases d <;>
    simp [bound_t.add, bound_t.le, bound_t.isInf, bound_t.num] at h1 h2 ⊢ <;> omega

theorem bound_t.sub_lb {c d : bound_t} {x y : ℤ}
    (h1 : c.le (.fin x) = true) (h2 : (bound_t.fin y).le d = true) :
    ∃ l, c.sub d = .ok l ∧ l.le (.fin (x - y)) = true := by
  cases c <;> cases d <;>
    simp [bound_t.sub, bound_t.add, bound_t.neg, bound_t.mkB, bound_t.le, bound_t.isInf,
      bound_t.num] at h1 h2 ⊢ <;> omega

theorem bound_t.sub_ub {c d : bound_t} {x y : ℤ}
    (h1 : (bound_t.fin x).le c = true) (h2 : d.le (.fin y) = true) :
    ∃ u, c.sub d = .ok u ∧ (bound_t.fin (x - y)).le u = true := by
  cases c <;> cases d <;>
    simp [bound_t.sub, bound_t.add, bound_t.neg, bound_t.mkB, bound_t.le, bound_t.isInf,
      bound_t.num] at h1 h2 ⊢ <;> omega

theorem bound_t.add_ok_no_pinf {c d : bound_t} (hc : c ≠ .pinf) (hd : d ≠ .pinf) :
    ∃ l, c.add d = .ok l := by
  cases c <;> cases d <;> simp [bound_t.add, bound_t.isInf, bound_t.num] at hc hd ⊢

theorem bound_t.add_ok_no_minf {c d : bound_t} (hc : c ≠ .minf) (hd : d ≠ .minf) :
    ∃ l, c.add d = .ok l := by
  cases c <;> cases d <;> simp [bound_t.add, bound_t.isInf, bound_t.num] at hc hd ⊢

theorem interval_t.add_eq_of {a b : interval_t} {l u : bound_t}
    (ha : a.is_bottom = false) (hb : b.is_bottom = false)
    (hl : a.lb.add b.lb = .ok l) (hu : a.ub.add b.ub = .ok u) :
    a.add b = .ok (interval_t.of l u) := by
  unfold interval_t.add
  rw [ha, hb]
  simp [hl, hu, Bind.bind, Except.bind, pure, Except.pure]

theorem interval_t.sub_eq_of {a b : interval_t} {l u : bound_t}
    (ha : a.is_bottom = false) (hb : b.is_bottom = false)
    (hl : a.lb.sub b.ub = .ok l) (hu : a.ub.sub b.lb = .ok u) :
    a.sub b = .ok (interval_t.of l u) := by
  unfold interval_t.sub
  rw [ha, hb]
  simp [hl, hu, Bind.bind, Except.bind, pure, Except.pure]

/-- C9: bound addition fails with UndefinedArithmetic exactly when one
operand is +oo and the other is -oo; in every other case the sum is defined:
finite plus finite is the integer sum, finite plus an infinity is that
infinity, and equal-signed infinities sum to that infinity. -/
theorem C9_bound_add_contract :
    (∀ a b : bound_t,
      a.add b = .error .UndefinedArithmetic ↔
        (a = .pinf ∧ b = .minf) ∨ (a = .minf ∧ b = .pinf)) ∧
    (∀ p q : ℤ, (bound_t.fin p).add (.fin q) = .ok (.fin (p + q))) ∧
    (∀ p : ℤ,
      (bound_t.fin p).add .pinf = .ok .pinf ∧ (bound_t.fin p).add .minf = .ok .minf ∧
      bound_t.pinf.add (.fin p) = .ok .pinf ∧ bound_t.minf.add (.fin p) = .ok .minf) ∧
    (bound_t.pinf.add .pinf = .ok .pinf ∧ bound_t.minf.add .minf = .ok .minf) := by
  refine ⟨?_, ?_, ?_, ?_⟩
  · intro a b
    cases a <;> cases b <;> simp [bound_t.add, bound_t.isInf, bound_t.num]
  · intro p q
    simp [bound_t.add, bound_t.isInf, bound_t.num]
  · intro p
    refine ⟨?_, ?_, ?_, ?_⟩ <;> simp [bound_t.add, bound_t.isInf, bound_t.num]
  · constructor <;> simp [bound_t.add, bound_t.isInf, bound_t.num]

/-- C2 counterexample: the claim states that a finite dividend divided by an
infinite divisor yields 0, in particular (-3) / (+oo) == 0; the source
(interval.hpp lines 111-118) instead returns the negated divisor, so
(-3) / (+oo) is -oo, not 0. -/
theorem C2_counterexample :
    (bound_t.fin (-3)).div .pinf = .ok .minf ∧
    (Except.ok bound_t.minf : Except CrabError bound_t) ≠ .ok (.fin 0) := by
  constructor
  · rfl
  · intro h
    simp at h

/-- C2 (amended): bound division fails with DivisionByZero exactly on the
finite zero divisor; finite/finite is truncated-toward-zero division; a
finite dividend divided by an infinity yields that infinity carrying the
dividend's sign (a positive dividend yields the divisor itself, zero yields
zero, a negative dividend yields the negated divisor); an infinite dividend
divided by a finite divisor propagates the divisor's sign; oo/oo yields the
infinity whose sign is the product (XOR) of the operand signs. -/
theorem C2_bound_division_amended :
    (∀ a b : bound_t, a.div b = .error .DivisionByZero ↔ b = .fin 0) ∧
    (∀ p q : ℤ, q ≠ 0 → (bound_t.fin p).div (.fin q) = .ok (.fin (p.tdiv q))) ∧
    (∀ p : ℤ, 0 < p →
      (bound_t.fin p).div .pinf = .ok .pinf ∧ (bound_t.fin p).div .minf = .ok .minf) ∧
    ((bound_t.fin 0).div .pinf = .ok (.fin 0) ∧ (bound_t.fin 0).div .minf = .ok (.fin 0)) ∧
    (∀ p : ℤ, p < 0 →
      (bound_t.fin p).div .pinf = .ok .minf ∧ (bound_t.fin p).div .minf = .ok .pinf) ∧
    (∀ q : ℤ, 0 < q →
      bound_t.pinf.div (.fin q) = .ok .pinf ∧ bound_t.minf.div (.fin q) = .ok .minf) ∧
    (∀ q : ℤ, q < 0 →
      bound_t.pinf.div (.fin q) = .ok .minf ∧ bound_t.minf.div (.fin q) = .ok .pinf) ∧
    (bound_t.pinf.div .pinf = .ok .pinf ∧ bound_t.pinf.div .minf = .ok .minf ∧
      bound_t.minf.div .pinf = .ok .minf ∧ bound_t.minf.div .minf = .ok .pinf) := by
  refine ⟨?_, ?_, ?_, ?_, ?_, ?_, ?_, ?_⟩
  · intro a b
    cases a <;> cases b <;>
      simp [bound_t.div, bound_t.divT, bound_t.neg, bound_t.mkB, bound_t.isInf, bound_t.num]
  · intro p q hq
    simp [bound_t.div, bound_t.divT, bound_t.mkB, bound_t.isInf, bound_t.num, hq]
  · intro p hp
    have h1 : p ≠ 0 := by omega
    constructor <;>
      simp [bound_t.div, bound_t.divT, bound_t.neg, bound_t.mkB, bound_t.isInf, bound_t.num,
        hp, h1]
  · constructor <;>
      simp [bound_t.div, bound_t.divT, bound_t.neg, bound_t.mkB, bound_t.isInf, bound_t.num]
  · intro p hp
    have h1 : p ≠ 0 := by omega
    have h2 : ¬ (0 < p) := by omega
    constructor <;>
      simp [bound_t.div, bound_t.divT, bound_t.neg, bound_t.mkB, bound_t.isInf, bound_t.num,
        h1, h2]
  · intro q hq
    have h1 : q ≠ 0 := by omega
    constructor <;>
      simp [bound_t.div, bound_t.divT, bound_t.neg, bound_t.mkB, bound_t.isInf, bound_t.num,
        hq, h1]
  · intro q hq
    have h1 : q ≠ 0 := by omega
    have h2 : ¬ (0 < q) := by omega
    constructor <;>
      simp [bound_t.div, bound_t.divT, bound_t.neg, bound_t.mkB, bound_t.isInf, bound_t.num,
        h1, h2]
  · refine ⟨rfl, rfl, rfl, rfl⟩

/-- C2 witness: the amended division contract evaluated at 7 / 2. -/
theorem C2_witness : (bound_t.fin 7).div (.fin 2) = .ok (.fin (Int.tdiv 7 2)) :=
  C2_bound_division_amended.2.1 7 2 (by decide)

/-- C10: interval addition and subtraction on non-bottom intervals other
than the infinite singletons [+oo,+oo] and [-oo,-oo] never reach the
UndefinedArithmetic branch of bound addition; the two-bound constructor does
not normalize those singletons away, and without excluding them the error
branch is reachable. -/
theorem C10_add_sub_defined :
    (∀ a b : interval_t,
      a.is_bottom = false → b.is_bottom = false →
      a ≠ ⟨.pinf, .pinf⟩ → a ≠ ⟨.minf, .minf⟩ →
      b ≠ ⟨.pinf, .pinf⟩ → b ≠ ⟨.minf, .minf⟩ →
      (∃ c, a.add b = .ok c) ∧ (∃ c, a.sub b = .ok c)) ∧
    (interval_t.of .pinf .pinf = ⟨.pinf, .pinf⟩ ∧
      interval_t.of .minf .minf = ⟨.minf, .minf⟩) ∧
    ((⟨.pinf, .pinf⟩ : interval_t).add ⟨.minf, .fin 0⟩ = .error .UndefinedArithmetic) := by
  refine ⟨?_, ⟨rfl, rfl⟩, rfl⟩
  intro a b ha hb happ hamm hbpp hbmm
  have hlbub : ∀ i : interval_t, i.is_bottom = false → i.lb.le i.ub = true := by
    intro i hi
    unfold interval_t.is_bottom at hi
    rw [bound_t.gt_eq] at hi
    simpa using hi
  have hlb : ∀ i : interval_t, i.is_bottom = false → i ≠ ⟨.pinf, .pinf⟩ → i.lb ≠ .pinf := by
    intro i hi hne heq
    apply hne
    have h1 := hlbub i hi
    rw [heq] at h1
    have h2 : i.ub = .pinf := by
      cases h : i.ub with
      | minf =>
        rw [h] at h1
        exact absurd h1 (by decide)
      | pinf => rfl
      | fin n =>
        rw [h] at h1
        exact absurd h1 (by simp [bound_t.le, bound_t.isInf, bound_t.num])
    obtain ⟨l, u⟩ := i
    simp only at heq h2
    rw [heq, h2]
  have hub : ∀ i : interval_t, i.is_bottom = false → i ≠ ⟨.minf, .minf⟩ → i.ub ≠ .minf := by
    intro i hi hne heq
    apply hne
    have h1 := hlbub i hi
    rw [heq] at h1
    have h2 : i.lb = .minf := by
      cases h : i.lb with
      | pinf =>
        rw [h] at h1
        exact absurd h1 (by decide)
      | minf => rfl
      | fin n =>
        rw [h] at h1
        exact absurd h1 (by simp [bound_t.le, bound_t.isInf, bound_t.num])
    obtain ⟨l, u⟩ := i
    simp only at heq h2
    rw [heq, h2]
  have hne_pinf_neg : ∀ c : bound_t, c ≠ .minf → c.neg ≠ .pinf := by
    intro c hc
    cases c <;> simp [bound_t.neg, bound_t.mkB, bound_t.isInf, bound_t.num] at hc ⊢
  have hne_minf_neg : ∀ c : bound_t, c ≠ .pinf → c.neg ≠ .minf := by
    intro c hc
    cases c <;> simp [bound_t.neg, bound_t.mkB, bound_t.isInf, bound_t.num] at hc ⊢ <;> omega
  constructor
  · obtain ⟨l, hl⟩ := bound_t.add_ok_no_pinf (hlb a ha happ) (hlb b hb hbpp)
    obtain ⟨u, hu⟩ := bound_t.add_ok_no_minf (hub a ha hamm) (hub b hb hbmm)
    exact ⟨_, interval_t.add_eq_of ha hb hl hu⟩
  · obtain ⟨l, hl⟩ := bound_t.add_ok_no_pinf (hlb a ha happ) (hne_pinf_neg _ (hub b hb hbmm))
    obtain ⟨u, hu⟩ := bound_t.add_ok_no_minf (hub a ha hamm) (hne_minf_neg _ (hlb b hb hbpp))
    exact ⟨_, interval_t.sub_eq_of ha hb hl hu⟩

/-- C10 witness: the safety conjunct evaluated at [0,1] + [2,3] and
[0,1] - [2,3]. -/
theorem C10_witness :
    (∃ c, (⟨.fin 0, .fin 1⟩ : interval_t).add ⟨.fin 2, .fin 3⟩ = .ok c) ∧
    (∃ c, (⟨.fin 0, .fin 1⟩ : interval_t).sub ⟨.fin 2, .fin 3⟩ = .ok c) :=
  C10_add_sub_defined.1 ⟨.fin 0, .fin 1⟩ ⟨.fin 2, .fin 3⟩ (by decide) (by decide)
    (by decide) (by decide) (by decide) (by decide)

/-! Monotonicity of truncated division on Int. -/

theorem tdiv_le_tdiv_right {a b d : ℤ} (hd : 0 < d) (h : a ≤ b) : a.tdiv d ≤ b.tdiv d := by
  rcases le_or_lt 0 a with ha | ha
  · rw [Int.tdiv_eq_ediv ha hd.le, Int.tdiv_eq_ediv (le_trans ha h) hd.le]
    exact Int.ediv_le_ediv hd h
  · rcases le_or_lt 0 b with hb | hb
    · have h1 : 0 ≤ (-a).tdiv d := Int.tdiv_nonneg (by omega) hd.le
      rw [Int.neg_tdiv] at h1
      have h2 : 0 ≤ b.tdiv d := Int.tdiv_nonneg hb hd.le
      omega
    · have h1 : (0:ℤ) ≤ -b := by omega
      have h2 : -b ≤ -a := by omega
      have h3 : (-b).tdiv d ≤ (-a).tdiv d := by
        rw [Int.tdiv_eq_ediv h1 hd.le, Int.tdiv_eq_ediv (le_trans h1 h2) hd.le]
        exact Int.ediv_le_ediv hd h2
      rw [Int.neg_tdiv, Int.neg_tdiv] at h3
      omega

theorem ediv_le_ediv_left_nonneg {x c d : ℤ} (hx : 0 ≤ x) (hc : 0 < c) (hcd : c ≤ d) :
    x / d ≤ x / c := by
  have hd : 0 < d := lt_of_lt_of_le hc hcd
  have h1 : x = (x.toNat : ℤ) := (Int.toNat_of_nonneg hx).symm
  have h2 : c = (c.toNat : ℤ) := (Int.toNat_of_nonneg hc.le).symm
  have h3 : d = (d.toNat : ℤ) := (Int.toNat_of_nonneg hd.le).symm
  rw [h1, h2, h3, ← Int.ofNat_ediv, ← Int.ofNat_ediv]
  exact_mod_cast Nat.div_le_div_left (by omega) (by omega)

theorem tdiv_le_tdiv_left_nonneg {x c d : ℤ} (hx : 0 ≤ x) (hc : 0 < c) (hcd : c ≤ d) :
    x.tdiv d ≤ x.tdiv c := by
  have hd : 0 < d := lt_of_lt_of_le hc hcd
  rw [Int.tdiv_eq_ediv hx hd.le, Int.tdiv_eq_ediv hx hc.le]
  exact ediv_le_ediv_left_nonneg hx hc hcd

theorem tdiv_le_tdiv_left_nonpos {x c d : ℤ} (hx : x ≤ 0) (hc : 0 < c) (hcd : c ≤ d) :
    x.tdiv c ≤ x.tdiv d := by
  have h1 := tdiv_le_tdiv_left_nonneg (x := -x) (by omega) hc hcd
  rw [Int.neg_tdiv, Int.neg_tdiv] at h1
  omega

/-! Minimum and maximum selection lemmas. -/

theorem bound_t.bmin_eq_or (x y : bound_t) : x.bmin y = x ∨ x.bmin y = y := by
  unfold bound_t.bmin
  split_ifs
  · left
    rfl
  · right
    rfl

theorem bound_t.bmax_eq_or (x y : bound_t) : x.bmax y = x ∨ x.bmax y = y := by
  unfold bound_t.bmax
  split_ifs
  · right
    rfl
  · left
    rfl

theorem bound_t.le_bmin {c x y : bound_t} (h1 : c.le x = true) (h2 : c.le y = true) :
    c.le (x.bmin y) = true := by
  unfold bound_t.bmin
  split_ifs <;> assumption

theorem bound_t.bmax_le {c x y : bound_t} (h1 : x.le c = true) (h2 : y.le c = true) :
    (x.bmax y).le c = true := by
  unfold bound_t.bmax
  split_ifs <;> assumption

/-! Bound multiplication lemmas. -/

theorem bound_t.num_zero_iff {a : bound_t} : a.num = 0 ↔ a = .fin 0 := by
  cases a <;> simp [bound_t.num]

theorem bound_t.mul_fin_fin (p q : ℤ) : (bound_t.fin p).mul (.fin q) = .fin (p * q) := by
  unfold bound_t.mul bound_t.mkB
  simp only [bound_t.num, bound_t.isInf, Bool.or_self, Bool.false_eq_true, if_false]
  split_ifs with h1 h2
  · rw [h1, mul_zero]
  · rw [h2, zero_mul]
  · rfl

theorem bound_t.mul_comm (a x : bound_t) : a.mul x = x.mul a := by
  unfold bound_t.mul
  split_ifs with h1 h2
  all_goals try rfl
  · rw [bound_t.num_zero_iff.1 h1, bound_t.num_zero_iff.1 h2]
  · rw [Bool.or_comm, Int.mul_comm]

theorem bound_t.mul_pinf_mono {b b' : bound_t} (h : b.le b' = true) :
    (bound_t.pinf.mul b).le (bound_t.pinf.mul b') = true := by
  cases b <;> cases b' <;>
    simp only [bound_t.le, bound_t.isInf, bound_t.num, bne_self_eq_false, Bool.false_eq_true,
      if_false, bne, decide_eq_true_eq] at h <;>
    unfold bound_t.mul bound_t.mkB <;>
    split_ifs <;>
    simp_all [bound_t.le, bound_t.isInf, bound_t.num] <;>
    omega

theorem bound_t.mul_minf_anti {b b' : bound_t} (h : b.le b' = true) :
    (bound_t.minf.mul b').le (bound_t.minf.mul b) = true := by
  cases b <;> cases b' <;>
    simp only [bound_t.le, bound_t.isInf, bound_t.num, bne_self_eq_false, Bool.false_eq_true,
      if_false, bne, decide_eq_true_eq] at h <;>
    unfold bound_t.mul bound_t.mkB <;>
    split_ifs <;>
    simp_all [bound_t.le, bound_t.isInf, bound_t.num] <;>
    omega

theorem bound_t.mul_fin_zero (b : bound_t) : (bound_t.fin 0).mul b = .fin 0 := by
  cases b with
  | minf => rfl
  | pinf => rfl
  | fin q =>
    rw [bound_t.mul_fin_fin, zero_mul]

theorem bound_t.mul_fin_pos_minf {p : ℤ} (hp : 0 < p) : (bound_t.fin p).mul .minf = .minf := by
  unfold bound_t.mul bound_t.mkB
  simp only [bound_t.num, bound_t.isInf, Bool.or_true]
  rw [if_neg (by omega : ¬ (-1 : ℤ) = 0), if_neg (by omega : ¬ p = 0), if_true,
    if_neg (by omega : ¬ p * -1 > 0)]

theorem bound_t.mul_fin_pos_pinf {p : ℤ} (hp : 0 < p) : (bound_t.fin p).mul .pinf = .pinf := by
  unfold bound_t.mul bound_t.mkB
  simp only [bound_t.num, bound_t.isInf, Bool.or_true]
  rw [if_neg (by omega : ¬ (1 : ℤ) = 0), if_neg (by omega : ¬ p = 0), if_true,
    if_pos (by omega : p * 1 > 0)]

theorem bound_t.mul_fin_neg_minf {p : ℤ} (hp : p < 0) : (bound_t.fin p).mul .minf = .pinf := by
  unfold bound_t.mul bound_t.mkB
  simp only [bound_t.num, bound_t.isInf, Bool.or_true]
  rw [if_neg (by omega : ¬ (-1 : ℤ) = 0), if_neg (by omega : ¬ p = 0), if_true,
    if_pos (by omega : p * -1 > 0)]

theorem bound_t.mul_fin_neg_pinf {p : ℤ} (hp : p < 0) : (bound_t.fin p).mul .pinf = .minf := by
  unfold bound_t.mul bound_t.mkB
  simp only [bound_t.num, bound_t.isInf, Bool.or_true]
  rw [if_neg (by omega : ¬ (1 : ℤ) = 0), if_neg (by omega : ¬ p = 0), if_true,
    if_neg (by omega : ¬ p * 1 > 0)]

theorem bound_t.mul_fin_pos_mono {p : ℤ} (hp : 0 < p) {b b' : bound_t} (h : b.le b' = true) :
    ((bound_t.fin p).mul b).le ((bound_t.fin p).mul b') = true := by
  cases b with
  | minf =>
    rw [bound_t.mul_fin_pos_minf hp]
    exact bound_t.minf_le _
  | pinf =>
    cases b' with
    | pinf => exact bound_t.le_refl _
    | minf => exact absurd h (by decide)
    | fin q => exact absurd h (by simp [bound_t.le, bound_t.isInf, bound_t.num])
  | fin q =>
    cases b' with
    | pinf =>
      rw [bound_t.mul_fin_pos_pinf hp]
      exact bound_t.le_pinf _
    | minf => exact absurd h (by simp [bound_t.le, bound_t.isInf, bound_t.num])
    | fin q' =>
      rw [bound_t.mul_fin_fin, bound_t.mul_fin_fin]
      have hq : q ≤ q' := by
        simpa [bound_t.le, bound_t.isInf, bound_t.num] using h
      simp only [bound_t.le, bound_t.isInf, bound_t.num, bne_self_eq_false, Bool.false_eq_true,
        if_false, decide_eq_true_eq]
      exact mul_le_mul_of_nonneg_left hq hp.le

theorem bound_t.mul_fin_neg_anti {p : ℤ} (hp : p < 0) {b b' : bound_t} (h : b.le b' = true) :
    ((bound_t.fin p).mul b').le ((bound_t.fin p).mul b) = true := by
  cases b with
  | minf =>
    rw [bound_t.mul_fin_neg_minf hp]
    exact bound_t.le_pinf _
  | pinf =>
    cases b' with
    | pinf => exact bound_t.le_refl _
    | minf => exact absurd h (by decide)
    | fin q => exact absurd h (by simp [bound_t.le, bound_t.isInf, bound_t.num])
  | fin q =>
    cases b' with
    | pinf =>
      rw [bound_t.mul_fin_neg_pinf hp]
      exact bound_t.minf_le _
    | minf => exact absurd h (by simp [bound_t.le, bound_t.isInf, bound_t.num])
    | fin q' =>
      rw [bound_t.mul_fin_fin, bound_t.mul_fin_fin]
      have hq : q ≤ q' := by
        simpa [bound_t.le, bound_t.isInf, bound_t.num] using h
      simp only [bound_t.le, bound_t.isInf, bound_t.num, bne_self_eq_false, Bool.false_eq_true,
        if_false, decide_eq_true_eq]
      exact mul_le_mul_of_nonpos_left hq hp.le

theorem bound_t.between_of_mono {f : bound_t → bound_t} {b0 b1 : bound_t} {y : ℤ}
    (hm : ∀ b b' : bound_t, b.le b' = true → (f b).le (f b') = true)
    (h0 : b0.le (.fin y) = true) (h1 : (bound_t.fin y).le b1 = true) :
    ((f b0).bmin (f b1)).le (f (.fin y)) = true ∧
    (f (.fin y)).le ((f b0).bmax (f b1)) = true :=
  ⟨bound_t.le_trans (bound_t.bmin_le_left _ _) (hm _ _ h0),
   bound_t.le_trans (hm _ _ h1) (bound_t.le_bmax_right _ _)⟩

theorem bound_t.between_of_anti {f : bound_t → bound_t} {b0 b1 : bound_t} {y : ℤ}
    (hm : ∀ b b' : bound_t, b.le b' = true → (f b').le (f b) = true)
    (h0 : b0.le (.fin y) = true) (h1 : (bound_t.fin y).le b1 = true) :
    ((f b0).bmin (f b1)).le (f (.fin y)) = true ∧
    (f (.fin y)).le ((f b0).bmax (f b1)) = true :=
  ⟨bound_t.le_trans (bound_t.bmin_le_right _ _) (hm _ _ h1),
   bound_t.le_trans (hm _ _ h0) (bound_t.le_bmax_left _ _)⟩

theorem bound_t.mul_between (a0 b0 b1 : bound_t) (y : ℤ)
    (h0 : b0.le (.fin y) = true) (h1 : (bound_t.fin y).le b1 = true) :
    ((a0.mul b0).bmin (a0.mul b1)).le (a0.mul (.fin y)) = true ∧
    (a0.mul (.fin y)).le ((a0.mul b0).bmax (a0.mul b1)) = true := by
  cases a0 with
  | pinf => exact bound_t.between_of_mono (fun _ _ h => bound_t.mul_pinf_mono h) h0 h1
  | minf => exact bound_t.between_of_anti (fun _ _ h => bound_t.mul_minf_anti h) h0 h1
  | fin p =>
    rcases lt_trichotomy p 0 with hp | hp | hp
    · exact bound_t.between_of_anti (fun _ _ h => bound_t.mul_fin_neg_anti hp h) h0 h1
    · subst hp
      rw [bound_t.mul_fin_zero, bound_t.mul_fin_zero, bound_t.mul_fin_zero]
      constructor
      · rcases bound_t.bmin_eq_or (bound_t.fin 0) (bound_t.fin 0) with h | h <;> rw [h] <;>
          exact bound_t.le_refl _
      · rcases bound_t.bmax_eq_or (bound_t.fin 0) (bound_t.fin 0) with h | h <;> rw [h] <;>
          exact bound_t.le_refl _
    · exact bound_t.between_of_mono (fun _ _ h => bound_t.mul_fin_pos_mono hp h) h0 h1

theorem interval_t.mul_sound {a b : interval_t} {x y : ℤ}
    (hx : a.mem x = true) (hy : b.mem y = true) : (a.mul b).mem (x * y) = true := by
  obtain ⟨hx1, hx2⟩ := interval_t.mem_iff.1 hx
  obtain ⟨hy1, hy2⟩ := interval_t.mem_iff.1 hy
  have ha : a.is_bottom = false := interval_t.not_bottom_of_mem hx
  have hb : b.is_bottom = false := interval_t.not_bottom_of_mem hy
  have s1 := bound_t.mul_between (.fin y) a.lb a.ub x hx1 hx2
  rw [bound_t.mul_comm (bound_t.fin y) a.lb, bound_t.mul_comm (bound_t.fin y) a.ub,
    bound_t.mul_comm (bound_t.fin y) (bound_t.fin x), bound_t.mul_fin_fin] at s1
  have s2 := bound_t.mul_between a.lb b.lb b.ub y hy1 hy2
  have s3 := bound_t.mul_between a.ub b.lb b.ub y hy1 hy2
  unfold interval_t.mul
  rw [ha, hb]
  simp only [Bool.or_self, Bool.false_eq_true, if_false]
  apply interval_t.mem_of_intro
  · have hA : (bound_t.bmin4 (a.lb.mul b.lb) (a.lb.mul b.ub) (a.ub.mul b.lb)
        (a.ub.mul b.ub)).le (a.lb.mul (.fin y)) = true :=
      bound_t.le_trans
        (bound_t.le_bmin (bound_t.bmin4_le_a _ _ _ _) (bound_t.bmin4_le_b _ _ _ _)) s2.1
    have hB : (bound_t.bmin4 (a.lb.mul b.lb) (a.lb.mul b.ub) (a.ub.mul b.lb)
        (a.ub.mul b.ub)).le (a.ub.mul (.fin y)) = true :=
      bound_t.le_trans
        (bound_t.le_bmin (bound_t.bmin4_le_c _ _ _ _) (bound_t.bmin4_le_d _ _ _ _)) s3.1
    rcases bound_t.bmin_eq_or (a.lb.mul (.fin y)) (a.ub.mul (.fin y)) with h | h
    · exact bound_t.le_trans hA (h ▸ s1.1)
    · exact bound_t.le_trans hB (h ▸ s1.1)
  · have hA : (a.lb.mul (.fin y)).le (bound_t.bmax4 (a.lb.mul b.lb) (a.lb.mul b.ub)
        (a.ub.mul b.lb) (a.ub.mul b.ub)) = true :=
      bound_t.le_trans s2.2
        (bound_t.bmax_le (bound_t.a_le_bmax4 _ _ _ _) (bound_t.b_le_bmax4 _ _ _ _))
    have hB : (a.ub.mul (.fin y)).le (bound_t.bmax4 (a.lb.mul b.lb) (a.lb.mul b.ub)
        (a.ub.mul b.lb) (a.ub.mul b.ub)) = true :=
      bound_t.le_trans s3.2
        (bound_t.bmax_le (bound_t.c_le_bmax4 _ _ _ _) (bound_t.d_le_bmax4 _ _ _ _))
    rcases bound_t.bmax_eq_or (a.lb.mul (.fin y)) (a.ub.mul (.fin y)) with h | h
    · exact bound_t.le_trans (h ▸ s1.2) hA
    · exact bound_t.le_trans (h ▸ s1.2) hB

/-! Bound division lemmas. -/

theorem bound_t.fin_le_fin {m n : ℤ} (h : m ≤ n) : (bound_t.fin m).le (.fin n) = true := by
  simp [bound_t.le, bound_t.isInf, bound_t.num, h]

theorem bound_t.bmin_self_le (v : bound_t) : (v.bmin v).le v = true := by
  rcases bound_t.bmin_eq_or v v with h | h <;> rw [h] <;> exact bound_t.le_refl v

theorem bound_t.le_bmax_self (v : bound_t) : v.le (v.bmax v) = true := by
  rcases bound_t.bmax_eq_or v v with h | h <;> rw [h] <;> exact bound_t.le_refl v

theorem tdiv_neg_den (z w : ℤ) : z.tdiv w = -(z.tdiv (-w)) := by
  conv_lhs => rw [show w = -(-w) by ring]
  rw [Int.tdiv_neg]

theorem bound_t.divT_fin_fin (p q : ℤ) : (bound_t.fin p).divT (.fin q) = .fin (p.tdiv q) := rfl

theorem bound_t.divT_minf_fin_pos {q : ℤ} (hq : 0 < q) : bound_t.minf.divT (.fin q) = .minf := by
  unfold bound_t.divT
  simp only [bound_t.isInf, bound_t.num, Bool.not_true, Bool.not_false, Bool.false_and,
    Bool.and_false, Bool.and_true, Bool.true_and, Bool.false_eq_true, if_false, if_true]
  rw [if_pos hq]

theorem bound_t.divT_minf_fin_neg {q : ℤ} (hq : q < 0) : bound_t.minf.divT (.fin q) = .pinf := by
  unfold bound_t.divT
  simp only [bound_t.isInf, bound_t.num, Bool.not_true, Bool.not_false, Bool.false_and,
    Bool.and_false, Bool.and_true, Bool.true_and, Bool.false_eq_true, if_false, if_true]
  rw [if_neg (by omega : ¬ 0 < q)]
  rfl

theorem bound_t.divT_pinf_fin_pos {q : ℤ} (hq : 0 < q) : bound_t.pinf.divT (.fin q) = .pinf := by
  unfold bound_t.divT
  simp only [bound_t.isInf, bound_t.num, Bool.not_true, Bool.not_false, Bool.false_and,
    Bool.and_false, Bool.and_true, Bool.true_and, Bool.false_eq_true, if_false, if_true]
  rw [if_pos hq]

theorem bound_t.divT_pinf_fin_neg {q : ℤ} (hq : q < 0) : bound_t.pinf.divT (.fin q) = .minf := by
  unfold bound_t.divT
  simp only [bound_t.isInf, bound_t.num, Bool.not_true, Bool.not_false, Bool.false_and,
    Bool.and_false, Bool.and_true, Bool.true_and, Bool.false_eq_true, if_false, if_true]
  rw [if_neg (by omega : ¬ 0 < q)]
  rfl

theorem bound_t.divT_num_mono_pos {d : ℤ} (hd : 0 < d) {c c' : bound_t} (h : c.le c' = true) :
    (c.divT (.fin d)).le (c'.divT (.fin d)) = true := by
  cases c with
  | minf =>
    rw [bound_t.divT_minf_fin_pos hd]
    exact bound_t.minf_le _
  | pinf =>
    cases c' with
    | pinf => exact bound_t.le_refl _
    | minf => exact absurd h (by decide)
    | fin q => exact absurd h (by simp [bound_t.le, bound_t.isInf, bound_t.num])
  | fin m =>
    cases c' with
    | pinf =>
      rw [bound_t.divT_pinf_fin_pos hd]
      exact bound_t.le_pinf _
    | minf => exact absurd h (by simp [bound_t.le, bound_t.isInf, bound_t.num])
    | fin m' =>
      rw [bound_t.divT_fin_fin, bound_t.divT_fin_fin]
      have hm : m ≤ m' := by
        simpa [bound_t.le, bound_t.isInf, bound_t.num] using h
      exact bound_t.fin_le_fin (tdiv_le_tdiv_right hd hm)

theorem bound_t.divT_num_anti_neg {d : ℤ} (hd : d < 0) {c c' : bound_t} (h : c.le c' = true) :
    (c'.divT (.fin d)).le (c.divT (.fin d)) = true := by
  cases c with
  | minf =>
    rw [bound_t.divT_minf_fin_neg hd]
    exact bound_t.le_pinf _
  | pinf =>
    cases c' with
    | pinf => exact bound_t.le_refl _
    | minf => exact absurd h (by decide)
    | fin q => exact absurd h (by simp [bound_t.le, bound_t.isInf, bound_t.num])
  | fin m =>
    cases c' with
    | pinf =>
      rw [bound_t.divT_pinf_fin_neg hd]
      exact bound_t.minf_le _
    | minf => exact absurd h (by simp [bound_t.le, bound_t.isInf, bound_t.num])
    | fin m' =>
      rw [bound_t.divT_fin_fin, bound_t.divT_fin_fin]
      have hm : m ≤ m' := by
        simpa [bound_t.le, bound_t.isInf, bound_t.num] using h
      apply bound_t.fin_le_fin
      have h1 : m.tdiv (-d) ≤ m'.tdiv (-d) := tdiv_le_tdiv_right (by omega) hm
      rw [tdiv_neg_den m d, tdiv_neg_den m' d]
      omega

theorem bound_t.divT_den_pos_between (c : bound_t) {bl bu y : ℤ}
    (h1 : 1 ≤ bl) (h2 : bl ≤ y) (h3 : y ≤ bu) :
    ((c.divT (.fin bl)).bmin (c.divT (.fin bu))).le (c.divT (.fin y)) = true ∧
    (c.divT (.fin y)).le ((c.divT (.fin bl)).bmax (c.divT (.fin bu))) = true := by
  have hbl : 0 < bl := by omega
  have hy : 0 < y := by omega
  have hbu : 0 < bu := by omega
  cases c with
  | minf =>
    rw [bound_t.divT_minf_fin_pos hbl, bound_t.divT_minf_fin_pos hy,
      bound_t.divT_minf_fin_pos hbu]
    exact ⟨bound_t.bmin_self_le _, bound_t.le_bmax_self _⟩
  | pinf =>
    rw [bound_t.divT_pinf_fin_pos hbl, bound_t.divT_pinf_fin_pos hy,
      bound_t.divT_pinf_fin_pos hbu]
    exact ⟨bound_t.bmin_self_le _, bound_t.le_bmax_self _⟩
  | fin m =>
    rw [bound_t.divT_fin_fin, bound_t.divT_fin_fin, bound_t.divT_fin_fin]
    rcases le_or_lt 0 m with hm | hm
    · have hlow : m.tdiv bu ≤ m.tdiv y := tdiv_le_tdiv_left_nonneg hm hy h3
      have hhigh : m.tdiv y ≤ m.tdiv bl := tdiv_le_tdiv_left_nonneg hm hbl h2
      exact ⟨bound_t.le_trans (bound_t.bmin_le_right _ _) (bound_t.fin_le_fin hlow),
        bound_t.le_trans (bound_t.fin_le_fin hhigh) (bound_t.le_bmax_left _ _)⟩
    · have hlow : m.tdiv bl ≤ m.tdiv y := tdiv_le_tdiv_left_nonpos hm.le hbl h2
      have hhigh : m.tdiv y ≤ m.tdiv bu := tdiv_le_tdiv_left_nonpos hm.le hy h3
      exact ⟨bound_t.le_trans (bound_t.bmin_le_left _ _) (bound_t.fin_le_fin hlow),
        bound_t.le_trans (bound_t.fin_le_fin hhigh) (bound_t.le_bmax_right _ _)⟩

theorem bound_t.divT_den_neg_between (c : bound_t) {bl bu y : ℤ}
    (h1 : bu ≤ -1) (h2 : bl ≤ y) (h3 : y ≤ bu) :
    ((c.divT (.fin bl)).bmin (c.divT (.fin bu))).le (c.divT (.fin y)) = true ∧
    (c.divT (.fin y)).le ((c.divT (.fin bl)).bmax (c.divT (.fin bu))) = true := by
  have hbu : bu < 0 := by omega
  have hy : y < 0 := by omega
  have hbl : bl < 0 := by omega
  cases c with
  | minf =>
    rw [bound_t.divT_minf_fin_neg hbl, bound_t.divT_minf_fin_neg hy,
      bound_t.divT_minf_fin_neg hbu]
    exact ⟨bound_t.bmin_self_le _, bound_t.le_bmax_self _⟩
  | pinf =>
    rw [bound_t.divT_pinf_fin_neg hbl, bound_t.divT_pinf_fin_neg hy,
      bound_t.divT_pinf_fin_neg hbu]
    exact ⟨bound_t.bmin_self_le _, bound_t.le_bmax_self _⟩
  | fin m =>
    rw [bound_t.divT_fin_fin, bound_t.divT_fin_fin, bound_t.divT_fin_fin]
    have e1 : (1:ℤ) ≤ -bu := by omega
    have e2 : -bu ≤ -y := by omega
    have e3 : -y ≤ -bl := by omega
    rcases le_or_lt 0 m with hm | hm
    · have hA : m.tdiv (-bl) ≤ m.tdiv (-y) := tdiv_le_tdiv_left_nonneg hm (by omega) e3
      have hB : m.tdiv (-y) ≤ m.tdiv (-bu) := tdiv_le_tdiv_left_nonneg hm (by omega) e2
      have hlow : m.tdiv bu ≤ m.tdiv y := by
        rw [tdiv_neg_den m bu, tdiv_neg_den m y]
        omega
      have hhigh : m.tdiv y ≤ m.tdiv bl := by
        rw [tdiv_neg_den m y, tdiv_neg_den m bl]
        omega
      exact ⟨bound_t.le_trans (bound_t.bmin_le_right _ _) (bound_t.fin_le_fin hlow),
        bound_t.le_trans (bound_t.fin_le_fin hhigh) (bound_t.le_bmax_left _ _)⟩
    · have hA : m.tdiv (-bu) ≤ m.tdiv (-y) := tdiv_le_tdiv_left_nonpos hm.le (by omega) e2
      have hB : m.tdiv (-y) ≤ m.tdiv (-bl) := tdiv_le_tdiv_left_nonpos hm.le (by omega) e3
      have hlow : m.tdiv bl ≤ m.tdiv y := by
        rw [tdiv_neg_den m bl, tdiv_neg_den m y]
        omega
      have hhigh : m.tdiv y ≤ m.tdiv bu := by
        rw [tdiv_neg_den m y, tdiv_neg_den m bu]
        omega
      exact ⟨bound_t.le_trans (bound_t.bmin_le_left _ _) (bound_t.fin_le_fin hlow),
        bound_t.le_trans (bound_t.fin_le_fin hhigh) (bound_t.le_bmax_right _ _)⟩

theorem interval_t.of_eq {l u : bound_t} (h : l.le u = true) : interval_t.of l u = ⟨l, u⟩ := by
  unfold interval_t.of
  rw [bound_t.gt_eq, h]
  rfl

theorem interval_t.mem_join_left {i x : interval_t} {n : ℤ} (h : i.mem n = true) :
    (i.join x).mem n = true := by
  obtain ⟨h1, h2⟩ := interval_t.mem_iff.1 h
  have hi : i.is_bottom = false := interval_t.not_bottom_of_mem h
  unfold interval_t.join
  rw [hi]
  simp only [Bool.false_eq_true, if_false]
  split_ifs with hx
  · exact h
  · exact interval_t.mem_of_intro (bound_t.le_trans (bound_t.bmin_le_left _ _) h1)
      (bound_t.le_trans h2 (bound_t.le_bmax_left _ _))

theorem interval_t.mem_join_right {i x : interval_t} {n : ℤ} (h : x.mem n = true) :
    (i.join x).mem n = true := by
  obtain ⟨h1, h2⟩ := interval_t.mem_iff.1 h
  have hx : x.is_bottom = false := interval_t.not_bottom_of_mem h
  unfold interval_t.join
  split_ifs with hi
  · exact h
  · rw [hx] at *
    simp at *
  · exact interval_t.mem_of_intro (bound_t.le_trans (bound_t.bmin_le_right _ _) h1)
      (bound_t.le_trans h2 (bound_t.le_bmax_right _ _))

theorem interval_t.divNZ_sound_fin {a b : interval_t} {x y bl bu : ℤ}
    (hx : a.mem x = true) (hbl : b.lb = .fin bl) (hbu : b.ub = .fin bu)
    (hsign : 1 ≤ bl ∨ bu ≤ -1) (hy : b.mem y = true) :
    (a.divNZ b).mem (x.tdiv y) = true := by
  obtain ⟨hx1, hx2⟩ := interval_t.mem_iff.1 hx
  obtain ⟨hy1, hy2⟩ := interval_t.mem_iff.1 hy
  rw [hbl] at hy1
  rw [hbu] at hy2
  have hy1' : bl ≤ y := by
    simpa [bound_t.le, bound_t.isInf, bound_t.num] using hy1
  have hy2' : y ≤ bu := by
    simpa [bound_t.le, bound_t.isInf, bound_t.num] using hy2
  have ha : a.is_bottom = false := interval_t.not_bottom_of_mem hx
  have hb : b.is_bottom = false := interval_t.not_bottom_of_mem hy
  unfold interval_t.divNZ
  rw [ha, hb]
  simp only [Bool.or_self, Bool.false_eq_true, if_false]
  rw [hbl, hbu]
  rcases hsign with hs | hs
  · have hy0 : 0 < y := by omega
    have s1lo : (a.lb.divT (.fin y)).le (.fin (x.tdiv y)) = true := by
      have h := bound_t.divT_num_mono_pos hy0 hx1
      rwa [bound_t.divT_fin_fin] at h
    have s1hi : (bound_t.fin (x.tdiv y)).le (a.ub.divT (.fin y)) = true := by
      have h := bound_t.divT_num_mono_pos hy0 hx2
      rwa [bound_t.divT_fin_fin] at h
    have s2 := bound_t.divT_den_pos_between a.lb hs hy1' hy2'
    have s3 := bound_t.divT_den_pos_between a.ub hs hy1' hy2'
    apply interval_t.mem_of_intro
    · exact bound_t.le_trans
        (bound_t.le_trans
          (bound_t.le_bmin (bound_t.bmin4_le_a _ _ _ _) (bound_t.bmin4_le_b _ _ _ _)) s2.1)
        s1lo
    · exact bound_t.le_trans s1hi
        (bound_t.le_trans s3.2
          (bound_t.bmax_le (bound_t.c_le_bmax4 _ _ _ _) (bound_t.d_le_bmax4 _ _ _ _)))
  · have hy0 : y < 0 := by omega
    have s1lo : (a.ub.divT (.fin y)).le (.fin (x.tdiv y)) = true := by
      have h := bound_t.divT_num_anti_neg hy0 hx2
      rwa [bound_t.divT_fin_fin] at h
    have s1hi : (bound_t.fin (x.tdiv y)).le (a.lb.divT (.fin y)) = true := by
      have h := bound_t.divT_num_anti_neg hy0 hx1
      rwa [bound_t.divT_fin_fin] at h
    have s2 := bound_t.divT_den_neg_between a.lb hs hy1' hy2'
    have s3 := bound_t.divT_den_neg_between a.ub hs hy1' hy2'
    apply interval_t.mem_of_intro
    · exact bound_t.le_trans
        (bound_t.le_trans
          (bound_t.le_bmin (bound_t.bmin4_le_c _ _ _ _) (bound_t.bmin4_le_d _ _ _ _)) s3.1)
        s1lo
    · exact bound_t.le_trans s1hi
        (bound_t.le_trans s2.2
          (bound_t.bmax_le (bound_t.a_le_bmax4 _ _ _ _) (bound_t.b_le_bmax4 _ _ _ _)))

theorem interval_t.div_sound_fin {a b : interval_t} {x y : ℤ}
    (hx : a.mem x = true) (hy : b.mem y = true) (hyne : y ≠ 0)
    (hfl : b.lb.isInf = false) (hfu : b.ub.isInf = false) :
    (a.div b).mem (x.tdiv y) = true := by
  obtain ⟨bl, hbl⟩ : ∃ bl, b.lb = .fin bl := by
    cases h : b.lb with
    | minf =>
      rw [h] at hfl
      exact absurd hfl (by simp [bound_t.isInf])
    | pinf =>
      rw [h] at hfl
      exact absurd hfl (by simp [bound_t.isInf])
    | fin n => exact ⟨n, rfl⟩
  obtain ⟨bu, hbu⟩ : ∃ bu, b.ub = .fin bu := by
    cases h : b.ub with
    | minf =>
      rw [h] at hfu
      exact absurd hfu (by simp [bound_t.isInf])
    | pinf =>
      rw [h] at hfu
      exact absurd hfu (by simp [bound_t.isInf])
    | fin n => exact ⟨n, rfl⟩
  obtain ⟨hy1, hy2⟩ := interval_t.mem_iff.1 hy
  rw [hbl] at hy1
  rw [hbu] at hy2
  have hy1' : bl ≤ y := by
    simpa [bound_t.le, bound_t.isInf, bound_t.num] using hy1
  have hy2' : y ≤ bu := by
    simpa [bound_t.le, bound_t.isInf, bound_t.num] using hy2
  have ha : a.is_bottom = false := interval_t.not_bottom_of_mem hx
  have hb : b.is_bottom = false := interval_t.not_bottom_of_mem hy
  unfold interval_t.div
  rw [ha, hb]
  simp only [Bool.or_self, Bool.false_eq_true, if_false]
  split_ifs with hm0 hboth
  · -- divisor spans zero and both split halves are empty: impossible, y is in one half
    exfalso
    rcases lt_or_gt_of_ne hyne with hyneg | hypos
    · have hll : interval_t.of b.lb (.fin (-1)) = ⟨.fin bl, .fin (-1)⟩ := by
        rw [hbl]
        exact interval_t.of_eq (bound_t.fin_le_fin (by omega))
      have hmem_l : (interval_t.of b.lb (.fin (-1))).mem y = true := by
        rw [hll]
        exact interval_t.mem_iff.2
          ⟨bound_t.fin_le_fin hy1', bound_t.fin_le_fin (by omega)⟩
      have hlbot := interval_t.not_bottom_of_mem hmem_l
      simp only [Bool.and_eq_true] at hboth
      rw [hboth.1] at hlbot
      cases hlbot
    · have huu : interval_t.of (.fin 1) b.ub = ⟨.fin 1, .fin bu⟩ := by
        rw [hbu]
        exact interval_t.of_eq (bound_t.fin_le_fin (by omega))
      have hmem_u : (interval_t.of (.fin 1) b.ub).mem y = true := by
        rw [huu]
        exact interval_t.mem_iff.2
          ⟨bound_t.fin_le_fin (by omega), bound_t.fin_le_fin hy2'⟩
      have hubot := interval_t.not_bottom_of_mem hmem_u
      simp only [Bool.and_eq_true] at hboth
      rw [hboth.2] at hubot
      cases hubot
  · -- divisor spans zero: the quotient is in one of the two rejoined halves
    rcases lt_or_gt_of_ne hyne with hyneg | hypos
    · have hll : interval_t.of b.lb (.fin (-1)) = ⟨.fin bl, .fin (-1)⟩ := by
        rw [hbl]
        exact interval_t.of_eq (bound_t.fin_le_fin (by omega))
      have hmem_l : (interval_t.of b.lb (.fin (-1))).mem y = true := by
        rw [hll]
        exact interval_t.mem_iff.2
          ⟨bound_t.fin_le_fin hy1', bound_t.fin_le_fin (by omega)⟩
      exact interval_t.mem_join_left
        (interval_t.divNZ_sound_fin hx (by rw [hll]) (by rw [hll]) (Or.inr (by omega)) hmem_l)
    · have huu : interval_t.of (.fin 1) b.ub = ⟨.fin 1, .fin bu⟩ := by
        rw [hbu]
        exact interval_t.of_eq (bound_t.fin_le_fin (by omega))
      have hmem_u : (interval_t.of (.fin 1) b.ub).mem y = true := by
        rw [huu]
        exact interval_t.mem_iff.2
          ⟨bound_t.fin_le_fin (by omega), bound_t.fin_le_fin hy2'⟩
      exact interval_t.mem_join_right
        (interval_t.divNZ_sound_fin hx (by rw [huu]) (by rw [huu]) (Or.inl (by omega)) hmem_u)
  · -- zero-free divisor: the corner formula applies directly
    have hsign : 1 ≤ bl ∨ bu ≤ -1 := by
      by_contra hcon
      push_neg at hcon
      apply hm0
      exact interval_t.mem_iff.2
        ⟨by rw [hbl]; exact bound_t.fin_le_fin (by omega),
         by rw [hbu]; exact bound_t.fin_le_fin (by omega)⟩
    exact interval_t.divNZ_sound_fin hx hbl hbu hsign hy

theorem interval_t.add_sound {a b : interval_t} {x y : ℤ}
    (hx : a.mem x = true) (hy : b.mem y = true) :
    ∃ c, a.add b = .ok c ∧ c.mem (x + y) = true := by
  obtain ⟨hx1, hx2⟩ := interval_t.mem_iff.1 hx
  obtain ⟨hy1, hy2⟩ := interval_t.mem_iff.1 hy
  have ha : a.is_bottom = false := interval_t.not_bottom_of_mem hx
  have hb : b.is_bottom = false := interval_t.not_bottom_of_mem hy
  obtain ⟨l, hl, hll⟩ := bound_t.add_lb hx1 hy1
  obtain ⟨u, hu, huu⟩ := bound_t.add_ub hx2 hy2
  exact ⟨_, interval_t.add_eq_of ha hb hl hu, interval_t.mem_of_intro hll huu⟩

theorem interval_t.sub_sound {a b : interval_t} {x y : ℤ}
    (hx : a.mem x = true) (hy : b.mem y = true) :
    ∃ c, a.sub b = .ok c ∧ c.mem (x - y) = true := by
  obtain ⟨hx1, hx2⟩ := interval_t.mem_iff.1 hx
  obtain ⟨hy1, hy2⟩ := interval_t.mem_iff.1 hy
  have ha : a.is_bottom = false := interval_t.not_bottom_of_mem hx
  have hb : b.is_bottom = false := interval_t.not_bottom_of_mem hy
  obtain ⟨l, hl, hll⟩ := bound_t.sub_lb hx1 hy2
  obtain ⟨u, hu, huu⟩ := bound_t.sub_ub hx2 hy1
  exact ⟨_, interval_t.sub_eq_of ha hb hl hu, interval_t.mem_of_intro hll huu⟩

/-- C1 counterexample: the claim asserts x/y is in the concretization of
a / b for every y that is not zero; at a = [3,3], b = [2,+oo], x = 3, y = 4
the memberships hold and y is not zero, yet a / b evaluates to [1,+oo]
(the source's bound division sends 3 / +oo to +oo, so the corner minimum is
3 / 2 = 1) and the true quotient 3 tdiv 4 = 0 is not inside it. -/
theorem C1_counterexample :
    (⟨.fin 3, .fin 3⟩ : interval_t).mem 3 = true ∧
    (⟨.fin 2, .pinf⟩ : interval_t).mem 4 = true ∧
    (4 : ℤ) ≠ 0 ∧
    ((⟨.fin 3, .fin 3⟩ : interval_t).div ⟨.fin 2, .pinf⟩).mem (Int.tdiv 3 4) = false := by
  refine ⟨by decide, by decide, by decide, ?_⟩
  decide

/-- C1 (amended): for all intervals a, b and integers x in gamma(a) and y in
gamma(b), x+y lies in gamma(a + b) and the sum is defined, x-y lies in
gamma(a - b), and x*y lies in gamma(a * b); the quotient x tdiv y lies in
gamma(a / b) provided y is not zero and both bounds of the divisor b are
finite (with an infinite divisor bound the source's bound division makes the
corner formula unsound, see the counterexample). -/
theorem C1_interval_arith_sound :
    ∀ (a b : interval_t) (x y : ℤ), a.mem x = true → b.mem y = true →
      (∃ c, a.add b = .ok c ∧ c.mem (x + y) = true) ∧
      (∃ c, a.sub b = .ok c ∧ c.mem (x - y) = true) ∧
      (a.mul b).mem (x * y) = true ∧
      (y ≠ 0 → b.lb.isInf = false → b.ub.isInf = false →
        (a.div b).mem (x.tdiv y) = true) := by
  intro a b x y hx hy
  exact ⟨interval_t.add_sound hx hy, interval_t.sub_sound hx hy,
    interval_t.mul_sound hx hy,
    fun hyne hfl hfu => interval_t.div_sound_fin hx hy hyne hfl hfu⟩

/-- C1 witness: soundness evaluated at a = [0,10], b = [1,2], x = 5, y = 2. -/
theorem C1_witness :
    ((⟨.fin 0, .fin 10⟩ : interval_t).mul ⟨.fin 1, .fin 2⟩).mem (5 * 2) = true ∧
    ((⟨.fin 0, .fin 10⟩ : interval_t).div ⟨.fin 1, .fin 2⟩).mem (Int.tdiv 5 2) = true := by
  have h := C1_interval_arith_sound ⟨.fin 0, .fin 10⟩ ⟨.fin 1, .fin 2⟩ 5 2
    (by decide) (by decide)
  exact ⟨h.2.2.1, h.2.2.2 (by decide) (by decide) (by decide)⟩

/-- C4 counterexample: the claim includes unsigned division UDiv among the
operations that return the exact singleton on singleton operands, but the
source's UDiv (interval.hpp lines 399-405) returns top for every pair of
non-bottom operands: [6,6] UDiv [3,3] is top, not the singleton [2,2]. -/
theorem C4_counterexample :
    (⟨.fin 6, .fin 6⟩ : interval_t).UDiv ⟨.fin 3, .fin 3⟩ = interval_t.top ∧
    interval_t.top ≠ interval_t.of (.fin 2) (.fin 2) ∧
    (⟨.fin 6, .fin 6⟩ : interval_t).singleton = some 6 ∧
    (⟨.fin 3, .fin 3⟩ : interval_t).singleton = some 3 := by
  decide

/-- C4 (amended): for the spec-modelled bitwise and modular operations
(SRem, URem, And, Or, Xor, Shl, LShr, AShr, all instances of liftSpecBin)
two non-bottom singleton operands produce the singleton of the exact value
and any other pair of non-bottom operands produces top; the source's
unsigned division UDiv instead returns top for every pair of non-bottom
operands, singletons included; bottom operands propagate bottom in both. -/
theorem C4_bitwise_modular_amended :
    (∀ (f : ℤ → ℤ → ℤ) (a b : interval_t), a.is_bottom = false → b.is_bottom = false →
      (∃ m n, a.singleton = some m ∧ b.singleton = some n ∧
        interval_t.liftSpecBin f a b = interval_t.of (.fin (f m n)) (.fin (f m n))) ∨
      ((a.singleton = none ∨ b.singleton = none) ∧
        interval_t.liftSpecBin f a b = interval_t.top)) ∧
    (∀ a b : interval_t, a.is_bottom = false → b.is_bottom = false →
      a.UDiv b = interval_t.top) ∧
    (∀ (f : ℤ → ℤ → ℤ) (a b : interval_t), a.is_bottom = true ∨ b.is_bottom = true →
      interval_t.liftSpecBin f a b = interval_t.bottom ∧ a.UDiv b = interval_t.bottom) := by
  refine ⟨?_, ?_, ?_⟩
  · intro f a b ha hb
    unfold interval_t.liftSpecBin
    rw [ha, hb]
    simp only [Bool.or_self, Bool.false_eq_true, if_false]
    cases hsa : a.singleton with
    | some m =>
      cases hsb : b.singleton with
      | some n => exact Or.inl ⟨m, n, rfl, rfl, rfl⟩
      | none => exact Or.inr ⟨Or.inr rfl, rfl⟩
    | none =>
      refine Or.inr ⟨Or.inl rfl, ?_⟩
      cases hsb : b.singleton <;> rfl
  · intro a b ha hb
    unfold interval_t.UDiv
    rw [ha, hb]
    rfl
  · intro f a b h
    have hor : (a.is_bottom || b.is_bottom) = true := by
      rcases h with h | h <;> rw [h] <;> simp
    constructor
    · unfold interval_t.liftSpecBin
      rw [hor]
      rfl
    · unfold interval_t.UDiv
      rw [hor]
      rfl

/-- C4 witness: the amended statement evaluated on the singletons [2,2] and
[3,3] with the concrete operation of addition. -/
theorem C4_witness :
    (∃ m n, (⟨.fin 2, .fin 2⟩ : interval_t).singleton = some m ∧
      (⟨.fin 3, .fin 3⟩ : interval_t).singleton = some n ∧
      interval_t.liftSpecBin (fun p q => p + q) ⟨.fin 2, .fin 2⟩ ⟨.fin 3, .fin 3⟩ =
        interval_t.of (.fin (m + n)) (.fin (m + n))) ∨
    (((⟨.fin 2, .fin 2⟩ : interval_t).singleton = none ∨
      (⟨.fin 3, .fin 3⟩ : interval_t).singleton = none) ∧
      interval_t.liftSpecBin (fun p q => p + q) ⟨.fin 2, .fin 2⟩ ⟨.fin 3, .fin 3⟩ =
        interval_t.top) :=
  C4_bitwise_modular_amended.1 (fun p q => p + q) ⟨.fin 2, .fin 2⟩ ⟨.fin 3, .fin 3⟩
    (by decide) (by decide)

/-! Widening lemmas. -/

theorem bound_t.ge_minf (a : bound_t) : a.ge .minf = true := by
  cases a <;> simp [bound_t.ge, bound_t.isInf, bound_t.num]

theorem bound_t.pinf_ge (a : bound_t) : bound_t.pinf.ge a = true := by
  cases a <;> simp [bound_t.ge, bound_t.isInf, bound_t.num]

theorem bound_t.lt_minf (a : bound_t) : a.lt .minf = false := by
  rw [bound_t.lt, bound_t.ge_minf a]
  rfl

theorem bound_t.pinf_lt (a : bound_t) : bound_t.pinf.lt a = false := by
  rw [bound_t.lt, bound_t.pinf_ge a]
  rfl

theorem interval_t.lb_le_ub {i : interval_t} (h : i.is_bottom = false) :
    i.lb.le i.ub = true := by
  unfold interval_t.is_bottom at h
  rw [bound_t.gt_eq] at h
  simpa using h

theorem interval_t.widen_lb_le_ub {p q : interval_t} (hp : p.is_bottom = false) :
    (if q.lb.lt p.lb then bound_t.minf else p.lb).le
      (if p.ub.lt q.ub then bound_t.pinf else p.ub) = true := by
  have hlu := interval_t.lb_le_ub hp
  split_ifs
  · exact bound_t.minf_le _
  · exact bound_t.minf_le _
  · exact bound_t.le_pinf _
  · exact hlu

theorem interval_t.widen_bot_left {p q : interval_t} (hp : p.is_bottom = true) :
    p.widen q = q := by
  unfold interval_t.widen
  rw [hp]
  rfl

theorem interval_t.widen_bot_right {p q : interval_t} (hp : p.is_bottom = false)
    (hq : q.is_bottom = true) : p.widen q = p := by
  unfold interval_t.widen
  rw [hp, hq]
  rfl

theorem interval_t.widen_eq {p q : interval_t} (hp : p.is_bottom = false)
    (hq : q.is_bottom = false) :
    p.widen q = ⟨if q.lb.lt p.lb then .minf else p.lb,
      if p.ub.lt q.ub then .pinf else p.ub⟩ := by
  unfold interval_t.widen
  rw [hp, hq]
  simp only [Bool.false_eq_true, if_false]
  exact interval_t.of_eq (interval_t.widen_lb_le_ub hp)

theorem interval_t.mk_not_bottom {l u : bound_t} (h : l.le u = true) :
    (⟨l, u⟩ : interval_t).is_bottom = false := by
  unfold interval_t.is_bottom
  rw [bound_t.gt_eq]
  simpa using h

theorem interval_t.widen_not_bot {p q : interval_t} (hp : p.is_bottom = false) :
    (p.widen q).is_bottom = false := by
  cases hq : q.is_bottom with
  | true =>
    rw [interval_t.widen_bot_right hp hq]
    exact hp
  | false =>
    rw [interval_t.widen_eq hp hq]
    exact interval_t.mk_not_bottom (interval_t.widen_lb_le_ub hp)

theorem interval_t.eqI_iff {i j : interval_t} :
    i.eqI j = true ↔
      (i.is_bottom = true ∧ j.is_bottom = true) ∨
      (i.is_bottom = false ∧ j.is_bottom = false ∧ i.lb = j.lb ∧ i.ub = j.ub) := by
  unfold interval_t.eqI
  split_ifs with h
  · simp [h]
  · have h' : i.is_bottom = false := by
      cases hb : i.is_bottom
      · rfl
      · exact absurd hb h
    constructor
    · intro hh
      simp only [Bool.and_eq_true, decide_eq_true_eq] at hh
      refine Or.inr ⟨h', ?_, hh.1, hh.2⟩
      unfold interval_t.is_bottom at h' ⊢
      rw [← hh.1, ← hh.2]
      exact h'
    · rintro (⟨hb, _⟩ | ⟨_, _, h1, h2⟩)
      · exact absurd hb h
      · simp [h1, h2]

theorem interval_t.eqI_refl (i : interval_t) : i.eqI i = true := by
  cases h : i.is_bottom
  · exact interval_t.eqI_iff.2 (Or.inr ⟨h, h, rfl, rfl⟩)
  · exact interval_t.eqI_iff.2 (Or.inl ⟨h, h⟩)

theorem interval_t.eqI_trans {i j k : interval_t} (h1 : i.eqI j = true)
    (h2 : j.eqI k = true) : i.eqI k = true := by
  rcases interval_t.eqI_iff.1 h1 with ⟨a1, a2⟩ | ⟨a1, a2, a3, a4⟩ <;>
    rcases interval_t.eqI_iff.1 h2 with ⟨b1, b2⟩ | ⟨b1, b2, b3, b4⟩
  · exact interval_t.eqI_iff.2 (Or.inl ⟨a1, b2⟩)
  · rw [a2] at b1
    cases b1
  · rw [a2] at b1
    cases b1
  · exact interval_t.eqI_iff.2 (Or.inr ⟨a1, b2, a3.trans b3, a4.trans b4⟩)

theorem imeasure_le_three (i : interval_t) : imeasure i ≤ 3 := by
  unfold imeasure
  split_ifs <;> omega

theorem imeasure_widen_le (p q : interval_t) : imeasure (p.widen q) ≤ imeasure p := by
  cases hp : p.is_bottom with
  | true =>
    rw [interval_t.widen_bot_left hp]
    have h1 := imeasure_le_three q
    unfold imeasure
    rw [hp]
    simp only [if_true]
    unfold imeasure at h1
    omega
  | false =>
    cases hq : q.is_bottom with
    | true => rw [interval_t.widen_bot_right hp hq]
    | false =>
      rw [interval_t.widen_eq hp hq]
      have hnb := interval_t.mk_not_bottom (interval_t.widen_lb_le_ub hp (q := q))
      unfold imeasure
      rw [hnb, hp]
      simp only [Bool.false_eq_true, if_false]
      split_ifs <;> simp_all <;> omega

theorem imeasure_widen_lt {p q : interval_t} (hch : (p.widen q).eqI p = false) :
    imeasure (p.widen q) < imeasure p := by
  cases hp : p.is_bottom with
  | true =>
    rw [interval_t.widen_bot_left hp] at hch ⊢
    have hq : q.is_bottom = false := by
      cases hqb : q.is_bottom
      · rfl
      · exfalso
        have h := interval_t.eqI_iff.2 (Or.inl ⟨hqb, hp⟩)
        rw [h] at hch
        cases hch
    unfold imeasure
    rw [hp, hq]
    simp only [if_true, Bool.false_eq_true, if_false]
    split_ifs <;> omega
  | false =>
    cases hq : q.is_bottom with
    | true =>
      rw [interval_t.widen_bot_right hp hq] at hch
      rw [interval_t.eqI_refl p] at hch
      cases hch
    | false =>
      rw [interval_t.widen_eq hp hq] at hch ⊢
      have hnb := interval_t.mk_not_bottom (interval_t.widen_lb_le_ub hp (q := q))
      cases hc1 : q.lb.lt p.lb with
      | false =>
        cases hc2 : p.ub.lt q.ub with
        | false =>
          exfalso
          rw [hc1, hc2] at hch
          simp only [Bool.false_eq_true, if_false] at hch
          have he : (⟨p.lb, p.ub⟩ : interval_t) = p := rfl
          rw [he, interval_t.eqI_refl p] at hch
          cases hch
        | true =>
          have hne : p.ub ≠ .pinf := by
            intro h
            rw [h, bound_t.pinf_lt] at hc2
            cases hc2
          simp only [Bool.false_eq_true, if_false, if_true]
          unfold imeasure
          rw [interval_t.mk_not_bottom (bound_t.le_pinf p.lb), hp]
          simp only [Bool.false_eq_true, if_false]
          split_ifs <;> simp_all
      | true =>
        have hne : p.lb ≠ .minf := by
          intro h
          rw [h, bound_t.lt_minf] at hc1
          cases hc1
        simp only [if_true]
        unfold imeasure
        rw [interval_t.mk_not_bottom
          (bound_t.minf_le (if p.ub.lt q.ub = true then bound_t.pinf else p.ub)), hp]
        simp only [Bool.false_eq_true, if_false]
        split_ifs <;> simp_all

theorem imeasure_wseq_le (x : ℕ → interval_t) (m n : ℕ) (h : m ≤ n) :
    imeasure (wseq x n) ≤ imeasure (wseq x m) := by
  induction n with
  | zero =>
    have : m = 0 := Nat.le_zero.1 h
    rw [this]
  | succ k ih =>
    rcases Nat.lt_or_ge m (k + 1) with h' | h'
    · have h2 := ih (Nat.lt_succ_iff.1 h')
      have h3 : imeasure (wseq x (k + 1)) ≤ imeasure (wseq x k) := imeasure_widen_le _ _
      omega
    · have : m = k + 1 := by omega
      rw [this]

theorem wseq_no_four_changes (x : ℕ → interval_t) (i1 i2 i3 i4 : ℕ)
    (h12 : i1 < i2) (h23 : i2 < i3) (h34 : i3 < i4)
    (c1 : (wseq x (i1 + 1)).eqI (wseq x i1) = false)
    (c2 : (wseq x (i2 + 1)).eqI (wseq x i2) = false)
    (c3 : (wseq x (i3 + 1)).eqI (wseq x i3) = false)
    (c4 : (wseq x (i4 + 1)).eqI (wseq x i4) = false) : False := by
  have d1 : imeasure (wseq x (i1 + 1)) < imeasure (wseq x i1) := imeasure_widen_lt c1
  have d2 : imeasure (wseq x (i2 + 1)) < imeasure (wseq x i2) := imeasure_widen_lt c2
  have d3 : imeasure (wseq x (i3 + 1)) < imeasure (wseq x i3) := imeasure_widen_lt c3
  have d4 : imeasure (wseq x (i4 + 1)) < imeasure (wseq x i4) := imeasure_widen_lt c4
  have e1 : imeasure (wseq x i2) ≤ imeasure (wseq x (i1 + 1)) :=
    imeasure_wseq_le x (i1 + 1) i2 h12
  have e2 : imeasure (wseq x i3) ≤ imeasure (wseq x (i2 + 1)) :=
    imeasure_wseq_le x (i2 + 1) i3 h23
  have e3 : imeasure (wseq x i4) ≤ imeasure (wseq x (i3 + 1)) :=
    imeasure_wseq_le x (i3 + 1) i4 h34
  have b := imeasure_le_three (wseq x i1)
  omega

theorem wseq_eventually_constant (x : ℕ → interval_t) :
    ∃ N, ∀ n, N ≤ n → (wseq x n).eqI (wseq x N) = true := by
  have hne : (Set.range fun n => imeasure (wseq x n)).Nonempty := ⟨_, ⟨0, rfl⟩⟩
  obtain ⟨N, hNeq⟩ := Nat.sInf_mem hne
  have hmin : ∀ k, sInf (Set.range fun n => imeasure (wseq x n)) ≤ imeasure (wseq x k) :=
    fun k => Nat.sInf_le ⟨k, rfl⟩
  have hconst : ∀ k, N ≤ k → imeasure (wseq x k) = imeasure (wseq x N) := by
    intro k hk
    have h1 := imeasure_wseq_le x N k hk
    have h2 := hmin k
    simp only at hNeq
    omega
  refine ⟨N, ?_⟩
  intro n hn
  induction n with
  | zero =>
    have : N = 0 := Nat.le_zero.1 hn
    rw [this]
    exact interval_t.eqI_refl _
  | succ k ih =>
    rcases Nat.lt_or_ge N (k + 1) with h' | h'
    · have hNk : N ≤ k := Nat.lt_succ_iff.1 h'
      have hch : (wseq x (k + 1)).eqI (wseq x k) = true := by
        cases hc : (wseq x (k + 1)).eqI (wseq x k) with
        | true => rfl
        | false =>
          exfalso
          have hd : imeasure (wseq x (k + 1)) < imeasure (wseq x k) := imeasure_widen_lt hc
          have e1 := hconst k hNk
          have e2 := hconst (k + 1) (by omega)
          omega
      exact interval_t.eqI_trans hch (ih hNk)
    · have : N = k + 1 := by omega
      rw [this]
      exact interval_t.eqI_refl _

theorem wseq_lb_minf_forever (x : ℕ → interval_t) (i : ℕ)
    (hnb : (wseq x i).is_bottom = false) (hlb : (wseq x i).lb = .minf) :
    ∀ j, i ≤ j → (wseq x j).is_bottom = false ∧ (wseq x j).lb = .minf := by
  intro j hj
  induction j with
  | zero =>
    have h0 : i = 0 := Nat.le_zero.1 hj
    rw [h0] at hnb hlb
    exact ⟨hnb, hlb⟩
  | succ k ih =>
    rcases Nat.lt_or_ge i (k + 1) with h' | h'
    · have hk := ih (Nat.lt_succ_iff.1 h')
      have hstep : wseq x (k + 1) = (wseq x k).widen (x (k + 1)) := rfl
      cases hq : (x (k + 1)).is_bottom with
      | true =>
        rw [hstep, interval_t.widen_bot_right hk.1 hq]
        exact hk
      | false =>
        rw [hstep, interval_t.widen_eq hk.1 hq]
        refine ⟨interval_t.mk_not_bottom (interval_t.widen_lb_le_ub hk.1), ?_⟩
        simp [hk.2, bound_t.lt_minf]
    · have h0 : i = k + 1 := by omega
      rw [h0] at hnb hlb
      exact ⟨hnb, hlb⟩

theorem wseq_ub_pinf_forever (x : ℕ → interval_t) (i : ℕ)
    (hnb : (wseq x i).is_bottom = false) (hub : (wseq x i).ub = .pinf) :
    ∀ j, i ≤ j → (wseq x j).is_bottom = false ∧ (wseq x j).ub = .pinf := by
  intro j hj
  induction j with
  | zero =>
    have h0 : i = 0 := Nat.le_zero.1 hj
    rw [h0] at hnb hub
    exact ⟨hnb, hub⟩
  | succ k ih =>
    rcases Nat.lt_or_ge i (k + 1) with h' | h'
    · have hk := ih (Nat.lt_succ_iff.1 h')
      have hstep : wseq x (k + 1) = (wseq x k).widen (x (k + 1)) := rfl
      cases hq : (x (k + 1)).is_bottom with
      | true =>
        rw [hstep, interval_t.widen_bot_right hk.1 hq]
        exact hk
      | false =>
        rw [hstep, interval_t.widen_eq hk.1 hq]
        refine ⟨interval_t.mk_not_bottom (interval_t.widen_lb_le_ub hk.1), ?_⟩
        simp [hk.2, bound_t.pinf_lt]
    · have h0 : i = k + 1 := by omega
      rw [h0] at hnb hub
      exact ⟨hnb, hub⟩

theorem wseq_lb_change (x : ℕ → interval_t) (i : ℕ)
    (hnb : (wseq x i).is_bottom = false) (hch : (wseq x (i + 1)).lb ≠ (wseq x i).lb) :
    (wseq x (i + 1)).is_bottom = false ∧ (wseq x (i + 1)).lb = .minf := by
  have hstep : wseq x (i + 1) = (wseq x i).widen (x (i + 1)) := rfl
  cases hq : (x (i + 1)).is_bottom with
  | true =>
    rw [hstep, interval_t.widen_bot_right hnb hq] at hch
    exact absurd rfl hch
  | false =>
    rw [hstep, interval_t.widen_eq hnb hq] at hch ⊢
    refine ⟨interval_t.mk_not_bottom (interval_t.widen_lb_le_ub hnb), ?_⟩
    by_cases hc : (x (i + 1)).lb.lt (wseq x i).lb = true
    · simp [hc]
    · exfalso
      apply hch
      simp [hc]

theorem wseq_ub_change (x : ℕ → interval_t) (i : ℕ)
    (hnb : (wseq x i).is_bottom = false) (hch : (wseq x (i + 1)).ub ≠ (wseq x i).ub) :
    (wseq x (i + 1)).is_bottom = false ∧ (wseq x (i + 1)).ub = .pinf := by
  have hstep : wseq x (i + 1) = (wseq x i).widen (x (i + 1)) := rfl
  cases hq : (x (i + 1)).is_bottom with
  | true =>
    rw [hstep, interval_t.widen_bot_right hnb hq] at hch
    exact absurd rfl hch
  | false =>
    rw [hstep, interval_t.widen_eq hnb hq] at hch ⊢
    refine ⟨interval_t.mk_not_bottom (interval_t.widen_lb_le_ub hnb), ?_⟩
    by_cases hc : (wseq x i).ub.lt (x (i + 1)).ub = true
    · simp [hc]
    · exfalso
      apply hch
      simp [hc]

theorem wseq_lb_once (x : ℕ → interval_t) (i j : ℕ) (hij : i < j)
    (hnb : (wseq x i).is_bottom = false) (hch : (wseq x (i + 1)).lb ≠ (wseq x i).lb) :
    (wseq x (j + 1)).lb = (wseq x j).lb := by
  obtain ⟨h1, h2⟩ := wseq_lb_change x i hnb hch
  have hj := wseq_lb_minf_forever x (i + 1) h1 h2 j hij
  have hj1 := wseq_lb_minf_forever x (i + 1) h1 h2 (j + 1) (by omega)
  rw [hj1.2, hj.2]

theorem wseq_ub_once (x : ℕ → interval_t) (i j : ℕ) (hij : i < j)
    (hnb : (wseq x i).is_bottom = false) (hch : (wseq x (i + 1)).ub ≠ (wseq x i).ub) :
    (wseq x (j + 1)).ub = (wseq x j).ub := by
  obtain ⟨h1, h2⟩ := wseq_ub_change x i hnb hch
  have hj := wseq_ub_pinf_forever x (i + 1) h1 h2 j hij
  have hj1 := wseq_ub_pinf_forever x (i + 1) h1 h2 (j + 1) (by omega)
  rw [hj1.2, hj.2]

/-- C5: for every ascending chain x of intervals the widening sequence
y 0 = x 0, y (i+1) = widen (y i) (x (i+1)) changes value (in the sense of
interval equality) at most 3 times and is eventually constant; on non-bottom
arguments widen jumps a grown lower endpoint directly to -oo and a grown
upper endpoint directly to +oo, and each endpoint of the sequence jumps at
most once. -/
theorem C5_widening_stabilization :
    ∀ x : ℕ → interval_t, (∀ i, (x i).leI (x (i + 1)) = true) →
      (∀ i1 i2 i3 i4, i1 < i2 → i2 < i3 → i3 < i4 →
        (wseq x (i1 + 1)).eqI (wseq x i1) = false →
        (wseq x (i2 + 1)).eqI (wseq x i2) = false →
        (wseq x (i3 + 1)).eqI (wseq x i3) = false →
        (wseq x (i4 + 1)).eqI (wseq x i4) = false → False) ∧
      (∃ N, ∀ n, N ≤ n → (wseq x n).eqI (wseq x N) = true) ∧
      (∀ p q : interval_t, p.is_bottom = false → q.is_bottom = false →
        p.widen q = ⟨if q.lb.lt p.lb then .minf else p.lb,
          if p.ub.lt q.ub then .pinf else p.ub⟩) ∧
      (∀ i j, i < j → (wseq x i).is_bottom = false →
        (wseq x (i + 1)).lb ≠ (wseq x i).lb → (wseq x (j + 1)).lb = (wseq x j).lb) ∧
      (∀ i j, i < j → (wseq x i).is_bottom = false →
        (wseq x (i + 1)).ub ≠ (wseq x i).ub → (wseq x (j + 1)).ub = (wseq x j).ub) := by
  intro x hasc
  exact ⟨wseq_no_four_changes x, wseq_eventually_constant x,
    fun p q hp hq => interval_t.widen_eq hp hq,
    fun i j hij hnb hch => wseq_lb_once x i j hij hnb hch,
    fun i j hij hnb hch => wseq_ub_once x i j hij hnb hch⟩

/-- C5 witness: the stabilization conclusion on the constant chain [0,0]. -/
theorem C5_witness :
    ∃ N, ∀ n, N ≤ n →
      (wseq (fun _ => (⟨.fin 0, .fin 0⟩ : interval_t)) n).eqI
        (wseq (fun _ => (⟨.fin 0, .fin 0⟩ : interval_t)) N) = true :=
  (C5_widening_stabilization (fun _ => ⟨.fin 0, .fin 0⟩)
    (fun _ =>
      (by decide : (⟨bound_t.fin 0, bound_t.fin 0⟩ : interval_t).leI
        ⟨bound_t.fin 0, bound_t.fin 0⟩ = true))).2.1

/-- C6 counterexample: the claim states that move_back leaves the source
block's statement list empty; the std::move algorithm in the source (cfg.hpp
lines 148-151) only moves elements and never erases them, so after moving
from a block holding one statement the source's list still has one
element. -/
theorem C6_counterexample :
    ((basic_block.new 0).move_back ⟨1, [42], [], []⟩).2.m_ts ≠ [] := by
  decide

/-- C6 (amended): after move_back the destination's statement list is its
old list followed by all of other's statements in order, and the
destination's label and adjacency are untouched; other's statement list
keeps its length (its elements are left in a moved-from state), it is not
emptied. -/
theorem C6_move_back_amended :
    ∀ b other : basic_block,
      (b.move_back other).1.m_ts = b.m_ts ++ other.m_ts ∧
      (b.move_back other).2.m_ts.length = other.m_ts.length ∧
      (b.move_back other).1.m_label = b.m_label ∧
      (b.move_back other).1.m_prev = b.m_prev ∧
      (b.move_back other).1.m_next = b.m_next := by
  intro b other
  exact ⟨rfl, rfl, rfl, rfl, rfl⟩

/-- C8 counterexample: the claim states that constructing a reversed view
over a CFG with no exit fails with NoExit; the cfg_rev_t constructor
(cfg.hpp lines 630-637) performs no exit check and succeeds on the
exit-less CFG cfg_t(0). -/
theorem C8_counterexample :
    (cfg_t.mk1 0).has_exit = false ∧
    cfg_rev_t.construct (cfg_t.mk1 0) = .ok ⟨cfg_t.mk1 0⟩ := by
  exact ⟨rfl, rfl⟩

/-- C8 (amended): constructing a reversed view always succeeds; on an
underlying CFG without an exit only entry() fails with NoExit (and the
underlying exit() itself fails with NoExit); with an exit set, entry() is
the underlying exit; exit() is the underlying entry and has_exit() is true
regardless; successors are the underlying predecessors and vice versa; and
simplify() on the reversed view changes nothing. -/
theorem C8_reversed_view_amended :
    ∀ g : cfg_t,
      (cfg_rev_t.construct g = .ok ⟨g⟩) ∧
      (g.m_exit = none →
        (cfg_rev_t.mk g).entry = .error .NoExit ∧ g.exitE = .error .NoExit) ∧
      (∀ x, g.m_exit = some x → (cfg_rev_t.mk g).entry = .ok x) ∧
      ((cfg_rev_t.mk g).exit = g.m_entry) ∧
      ((cfg_rev_t.mk g).has_exit = true) ∧
      (∀ l, (cfg_rev_t.mk g).succs l = g.preds l ∧ (cfg_rev_t.mk g).preds l = g.succs l) ∧
      ((cfg_rev_t.mk g).simplify = cfg_rev_t.mk g) := by
  intro g
  refine ⟨rfl, ?_, ?_, rfl, rfl, fun l => ⟨rfl, rfl⟩, rfl⟩
  · intro h
    constructor
    · unfold cfg_rev_t.entry cfg_t.has_exit
      rw [h]
      rfl
    · unfold cfg_t.exitE
      rw [h]
  · intro x h
    unfold cfg_rev_t.entry cfg_t.has_exit cfg_t.exitE
    rw [h]
    rfl

/-- C8 witness: the amended contract evaluated on the CFG with entry 0 and
exit 1. -/
theorem C8_witness : (cfg_rev_t.mk (cfg_t.mk2 0 1)).entry = .ok 1 :=
  (C8_reversed_view_amended (cfg_t.mk2 0 1)).2.2.1 1 rfl

/-! CFG map lemmas. -/

theorem assocFind_map_keyfix (bs : List (label_t × basic_block)) (t l : label_t)
    (f : basic_block → basic_block) :
    assocFind (bs.map (fun p => if p.1 = t then (p.1, f p.2) else p)) l =
      if l = t then (assocFind bs l).map f else assocFind bs l := by
  induction bs with
  | nil =>
    simp only [List.map_nil]
    unfold assocFind
    split_ifs <;> rfl
  | cons p r ih =>
    simp only [List.map_cons]
    by_cases h1 : p.1 = t
    · by_cases h2 : p.1 = l
      · have hlt : l = t := by rw [← h2, h1]
        simp [assocFind, h1, h2, hlt]
      · have h3 : ¬ t = l := by
          rw [← h1]
          exact h2
        simp [assocFind, h1, h2, h3, ih]
    · by_cases h2 : p.1 = l
      · have hlt : ¬ l = t := by
          rw [← h2]
          exact h1
        simp [assocFind, h1, h2, hlt]
      · simp [assocFind, h1, h2, ih]

theorem cfg_t.find_upd (g : cfg_t) (t l : label_t) (f : basic_block → basic_block) :
    (g.upd t f).find l = if l = t then (g.find l).map f else g.find l := by
  unfold cfg_t.find cfg_t.upd
  exact assocFind_map_keyfix g.m_blocks t l f

theorem cfg_t.succs_upd_next (g : cfg_t) (t l : label_t) (f : basic_block → List label_t) :
    (g.upd t (fun bb => { bb with m_next := f bb })).succs l =
      if l = t then ((g.find l).map f).getD [] else g.succs l := by
  unfold cfg_t.succs
  rw [cfg_t.find_upd]
  split_ifs with h
  · cases ho : g.find l <;> rfl
  · rfl

theorem cfg_t.succs_upd_prev (g : cfg_t) (t l : label_t) (f : basic_block → List label_t) :
    (g.upd t (fun bb => { bb with m_prev := f bb })).succs l = g.succs l := by
  unfold cfg_t.succs
  rw [cfg_t.find_upd]
  split_ifs with h
  · cases ho : g.find l <;> rfl
  · rfl

theorem cfg_t.preds_upd_prev (g : cfg_t) (t l : label_t) (f : basic_block → List label_t) :
    (g.upd t (fun bb => { bb with m_prev := f bb })).preds l =
      if l = t then ((g.find l).map f).getD [] else g.preds l := by
  unfold cfg_t.preds
  rw [cfg_t.find_upd]
  split_ifs with h
  · cases ho : g.find l <;> rfl
  · rfl

theorem cfg_t.preds_upd_next (g : cfg_t) (t l : label_t) (f : basic_block → List label_t) :
    (g.upd t (fun bb => { bb with m_next := f bb })).preds l = g.preds l := by
  unfold cfg_t.preds
  rw [cfg_t.find_upd]
  split_ifs with h
  · cases ho : g.find l <;> rfl
  · rfl

theorem cfg_t.succs_connect (g : cfg_t) (a b : label_t)
    (ha : (g.find a).isSome = true) (hb : (g.find b).isSome = true) (l : label_t) :
    (g.connect a b).succs l =
      if l = a then insert_adjacent (g.succs l) b else g.succs l := by
  unfold cfg_t.connect
  rw [if_pos (by rw [ha, hb]; rfl)]
  rw [cfg_t.succs_upd_prev, cfg_t.succs_upd_next]
  split_ifs with h
  · obtain ⟨bb, hbb⟩ := Option.isSome_iff_exists.1 (h ▸ ha)
    unfold cfg_t.succs
    rw [hbb]
    rfl
  · rfl

theorem cfg_t.preds_connect (g : cfg_t) (a b : label_t)
    (ha : (g.find a).isSome = true) (hb : (g.find b).isSome = true) (l : label_t) :
    (g.connect a b).preds l =
      if l = b then insert_adjacent (g.preds l) a else g.preds l := by
  unfold cfg_t.connect
  rw [if_pos (by rw [ha, hb]; rfl)]
  rw [cfg_t.preds_upd_prev]
  split_ifs with h
  · rw [cfg_t.find_upd]
    by_cases hab : b = a
    · subst hab
      subst h
      obtain ⟨bb, hbb⟩ := Option.isSome_iff_exists.1 ha
      rw [if_pos rfl, hbb]
      unfold cfg_t.preds
      rw [hbb]
      rfl
    · subst h
      rw [if_neg hab]
      obtain ⟨bb, hbb⟩ := Option.isSome_iff_exists.1 hb
      unfold cfg_t.preds
      rw [hbb]
      rfl
  · rw [cfg_t.preds_upd_next]

theorem cfg_t.succs_disconnect (g : cfg_t) (a b : label_t)
    (ha : (g.find a).isSome = true) (hb : (g.find b).isSome = true) (l : label_t) :
    (g.disconnect a b).succs l =
      if l = a then remove_adjacent (g.succs l) b else g.succs l := by
  unfold cfg_t.disconnect
  rw [if_pos (by rw [ha, hb]; rfl)]
  rw [cfg_t.succs_upd_prev, cfg_t.succs_upd_next]
  split_ifs with h
  · obtain ⟨bb, hbb⟩ := Option.isSome_iff_exists.1 (h ▸ ha)
    unfold cfg_t.succs
    rw [hbb]
    rfl
  · rfl

theorem cfg_t.preds_disconnect (g : cfg_t) (a b : label_t)
    (ha : (g.find a).isSome = true) (hb : (g.find b).isSome = true) (l : label_t) :
    (g.disconnect a b).preds l =
      if l = b then remove_adjacent (g.preds l) a else g.preds l := by
  unfold cfg_t.disconnect
  rw [if_pos (by rw [ha, hb]; rfl)]
  rw [cfg_t.preds_upd_prev]
  split_ifs with h
  · rw [cfg_t.find_upd]
    by_cases hab : b = a
    · subst hab
      subst h
      obtain ⟨bb, hbb⟩ := Option.isSome_iff_exists.1 ha
      rw [if_pos rfl, hbb]
      unfold cfg_t.preds
      rw [hbb]
      rfl
    · subst h
      rw [if_neg hab]
      obtain ⟨bb, hbb⟩ := Option.isSome_iff_exists.1 hb
      unfold cfg_t.preds
      rw [hbb]
      rfl
  · rw [cfg_t.preds_upd_next]

theorem insert_adjacent_mem_iff {c : List label_t} {e x : label_t} :
    x ∈ insert_adjacent c e ↔ x ∈ c ∨ x = e := by
  unfold insert_adjacent
  split_ifs with h
  · constructor
    · exact Or.inl
    · rintro (hx | rfl)
      exacts [hx, h]
  · simp [List.mem_append]

theorem remove_adjacent_mem_iff {c : List label_t} {e x : label_t} :
    x ∈ remove_adjacent c e ↔ x ∈ c ∧ x ≠ e := by
  unfold remove_adjacent
  split_ifs with h
  · simp [List.mem_filter]
  · constructor
    · intro hx
      exact ⟨hx, fun hxe => h (hxe ▸ hx)⟩
    · exact And.left

theorem insert_adjacent_nodup {c : List label_t} (h : c.Nodup) (e : label_t) :
    (insert_adjacent c e).Nodup := by
  unfold insert_adjacent
  split_ifs with hm
  · exact h
  · refine List.Nodup.append h (List.nodup_singleton e) ?_
    intro x hx hxe
    simp only [List.mem_singleton] at hxe
    subst hxe
    exact hm hx

theorem remove_adjacent_nodup {c : List label_t} (h : c.Nodup) (e : label_t) :
    (remove_adjacent c e).Nodup := by
  unfold remove_adjacent
  split_ifs
  · exact h.filter _
  · exact h

theorem cfg_t.find_upd_isSome (g : cfg_t) (t l : label_t) (f : basic_block → basic_block) :
    ((g.upd t f).find l).isSome = (g.find l).isSome := by
  rw [cfg_t.find_upd]
  split_ifs
  · cases g.find l <;> rfl
  · rfl

theorem cfg_t.connect_eq (g : cfg_t) (a b : label_t)
    (h : ((g.find a).isSome && (g.find b).isSome) = true) :
    g.connect a b =
      (g.upd a (fun bb => { bb with m_next := insert_adjacent bb.m_next b })).upd b
        (fun bb => { bb with m_prev := insert_adjacent bb.m_prev a }) := by
  unfold cfg_t.connect
  rw [if_pos h]

theorem cfg_t.disconnect_eq (g : cfg_t) (a b : label_t)
    (h : ((g.find a).isSome && (g.find b).isSome) = true) :
    g.disconnect a b =
      (g.upd a (fun bb => { bb with m_next := remove_adjacent bb.m_next b })).upd b
        (fun bb => { bb with m_prev := remove_adjacent bb.m_prev a }) := by
  unfold cfg_t.disconnect
  rw [if_pos h]

theorem map_cond_id (bs : List (label_t × basic_block)) (t : label_t)
    (f : basic_block → basic_block) (hf : ∀ p ∈ bs, p.1 = t → f p.2 = p.2) :
    bs.map (fun p => if p.1 = t then (p.1, f p.2) else p) = bs := by
  induction bs with
  | nil => rfl
  | cons p r ih =>
    simp only [List.map_cons]
    rw [ih (fun q hq hqt => hf q (List.mem_cons_of_mem _ hq) hqt)]
    congr 1
    by_cases h : p.1 = t
    · rw [if_pos h, hf p (List.mem_cons_self _ _) h]
    · rw [if_neg h]

theorem cfg_t.upd_id (g : cfg_t) (t : label_t) (f : basic_block → basic_block)
    (hf : ∀ p ∈ g.m_blocks, p.1 = t → f p.2 = p.2) : g.upd t f = g := by
  unfold cfg_t.upd
  rw [map_cond_id g.m_blocks t f hf]

theorem insert_adjacent_idem (c : List label_t) (e : label_t) :
    insert_adjacent (insert_adjacent c e) e = insert_adjacent c e := by
  by_cases h : e ∈ c
  · simp [insert_adjacent, h]
  · simp [insert_adjacent, h]

theorem cfg_t.connect_idem (g : cfg_t) (a b : label_t) :
    (g.connect a b).connect a b = g.connect a b := by
  by_cases h : ((g.find a).isSome && (g.find b).isSome) = true
  · have hguard :
        (((g.connect a b).find a).isSome && ((g.connect a b).find b).isSome) = true := by
      rw [cfg_t.connect_eq g a b h, cfg_t.find_upd_isSome, cfg_t.find_upd_isSome,
        cfg_t.find_upd_isSome, cfg_t.find_upd_isSome]
      exact h
    rw [cfg_t.connect_eq _ a b hguard]
    have e1 : (g.connect a b).upd a
        (fun bb => { bb with m_next := insert_adjacent bb.m_next b }) = g.connect a b := by
      apply cfg_t.upd_id
      intro p hp hpa
      rw [cfg_t.connect_eq g a b h] at hp
      unfold cfg_t.upd at hp
      simp only [List.mem_map] at hp
      obtain ⟨q, hq, rfl⟩ := hp
      obtain ⟨r, hr, rfl⟩ := hq
      by_cases hra : r.1 = a <;> by_cases hrb : r.1 = b <;>
        simp_all [insert_adjacent_idem]
    rw [e1]
    apply cfg_t.upd_id
    intro p hp hpb
    rw [cfg_t.connect_eq g a b h] at hp
    unfold cfg_t.upd at hp
    simp only [List.mem_map] at hp
    obtain ⟨q, hq, rfl⟩ := hp
    obtain ⟨r, hr, rfl⟩ := hq
    by_cases hra : r.1 = a <;> by_cases hrb : r.1 = b <;>
      simp_all [insert_adjacent_idem]
  · have e : g.connect a b = g := by
      unfold cfg_t.connect
      rw [if_neg h]
    rw [e]
    exact e

theorem cfg_t.applyOp_inv (g : cfg_t)
    (hm : ∀ u v, v ∈ g.succs u ↔ u ∈ g.preds v)
    (hns : ∀ u, (g.succs u).Nodup) (hnp : ∀ u, (g.preds u).Nodup) (op : edgeOp) :
    (∀ u v, v ∈ (g.applyOp op).succs u ↔ u ∈ (g.applyOp op).preds v) ∧
    (∀ u, ((g.applyOp op).succs u).Nodup) ∧ (∀ u, ((g.applyOp op).preds u).Nodup) := by
  cases op with
  | conn a b =>
    by_cases h : ((g.find a).isSome && (g.find b).isSome) = true
    · have hab : (g.find a).isSome = true ∧ (g.find b).isSome = true := by simpa using h
      have ha := hab.1
      have hb := hab.2
      refine ⟨?_, ?_, ?_⟩
      · intro u v
        show v ∈ (g.connect a b).succs u ↔ u ∈ (g.connect a b).preds v
        rw [cfg_t.succs_connect g a b ha hb, cfg_t.preds_connect g a b ha hb]
        have h1 : v ∈ (if u = a then insert_adjacent (g.succs u) b else g.succs u) ↔
            (v ∈ g.succs u ∨ (u = a ∧ v = b)) := by
          split_ifs with hu <;> simp [insert_adjacent_mem_iff, hu]
        have h2 : u ∈ (if v = b then insert_adjacent (g.preds v) a else g.preds v) ↔
            (u ∈ g.preds v ∨ (v = b ∧ u = a)) := by
          split_ifs with hv <;> simp [insert_adjacent_mem_iff, hv]
        rw [h1, h2]
        have h3 := hm u v
        tauto
      · intro u
        show ((g.connect a b).succs u).Nodup
        rw [cfg_t.succs_connect g a b ha hb]
        split_ifs
        · exact insert_adjacent_nodup (hns u) b
        · exact hns u
      · intro u
        show ((g.connect a b).preds u).Nodup
        rw [cfg_t.preds_connect g a b ha hb]
        split_ifs
        · exact insert_adjacent_nodup (hnp u) a
        · exact hnp u
    · have e : g.applyOp (.conn a b) = g := by
        show g.connect a b = g
        unfold cfg_t.connect
        rw [if_neg h]
      rw [e]
      exact ⟨hm, hns, hnp⟩
  | disc a b =>
    by_cases h : ((g.find a).isSome && (g.find b).isSome) = true
    · have hab : (g.find a).isSome = true ∧ (g.find b).isSome = true := by simpa using h
      have ha := hab.1
      have hb := hab.2
      refine ⟨?_, ?_, ?_⟩
      · intro u v
        show v ∈ (g.disconnect a b).succs u ↔ u ∈ (g.disconnect a b).preds v
        rw [cfg_t.succs_disconnect g a b ha hb, cfg_t.preds_disconnect g a b ha hb]
        have h1 : v ∈ (if u = a then remove_adjacent (g.succs u) b else g.succs u) ↔
            (v ∈ g.succs u ∧ ¬(u = a ∧ v = b)) := by
          split_ifs with hu <;> simp [remove_adjacent_mem_iff, hu]
        have h2 : u ∈ (if v = b then remove_adjacent (g.preds v) a else g.preds v) ↔
            (u ∈ g.preds v ∧ ¬(v = b ∧ u = a)) := by
          split_ifs with hv <;> simp [remove_adjacent_mem_iff, hv]
        rw [h1, h2]
        have h3 := hm u v
        tauto
      · intro u
        show ((g.disconnect a b).succs u).Nodup
        rw [cfg_t.succs_disconnect g a b ha hb]
        split_ifs
        · exact remove_adjacent_nodup (hns u) b
        · exact hns u
      · intro u
        show ((g.disconnect a b).preds u).Nodup
        rw [cfg_t.preds_disconnect g a b ha hb]
        split_ifs
        · exact remove_adjacent_nodup (hnp u) a
        · exact hnp u
    · have e : g.applyOp (.disc a b) = g := by
        show g.disconnect a b = g
        unfold cfg_t.disconnect
        rw [if_neg h]
      rw [e]
      exact ⟨hm, hns, hnp⟩

theorem cfg_t.runOps_inv (ops : List edgeOp) (g : cfg_t)
    (hm : ∀ u v, v ∈ g.succs u ↔ u ∈ g.preds v)
    (hns : ∀ u, (g.succs u).Nodup) (hnp : ∀ u, (g.preds u).Nodup) :
    (∀ u v, v ∈ (g.runOps ops).succs u ↔ u ∈ (g.runOps ops).preds v) ∧
    (∀ u, ((g.runOps ops).succs u).Nodup) ∧ (∀ u, ((g.runOps ops).preds u).Nodup) := by
  induction ops generalizing g with
  | nil => exact ⟨hm, hns, hnp⟩
  | cons op rest ih =>
    have h := cfg_t.applyOp_inv g hm hns hnp op
    exact ih (g.applyOp op) h.1 h.2.1 h.2.2

theorem cfg_t.mk1_succs (e u : label_t) : (cfg_t.mk1 e).succs u = [] := by
  unfold cfg_t.mk1 cfg_t.succs cfg_t.find
  simp only [assocFind, basic_block.new]
  split_ifs <;> rfl

theorem cfg_t.mk1_preds (e u : label_t) : (cfg_t.mk1 e).preds u = [] := by
  unfold cfg_t.mk1 cfg_t.preds cfg_t.find
  simp only [assocFind, basic_block.new]
  split_ifs <;> rfl

theorem cfg_t.mk2_succs (e x u : label_t) : (cfg_t.mk2 e x).succs u = [] := by
  unfold cfg_t.mk2 cfg_t.succs cfg_t.find
  split_ifs with h <;> simp only [assocFind, basic_block.new] <;> split_ifs <;> rfl

theorem cfg_t.mk2_preds (e x u : label_t) : (cfg_t.mk2 e x).preds u = [] := by
  unfold cfg_t.mk2 cfg_t.preds cfg_t.find
  split_ifs with h <;> simp only [assocFind, basic_block.new] <;> split_ifs <;> rfl

/-- C7: after any sequence of connect (operator>>) and disconnect
(operator-=) calls starting from either cfg_t constructor, every pair of
labels satisfies the edge-mirror property (b is a successor of a exactly
when a is a predecessor of b), all adjacency sequences are duplicate-free,
and connecting an already-connected pair changes nothing (so the successor
sequence in particular is unchanged). -/
theorem C7_edge_mirror :
    (∀ (e x : label_t) (ops : List edgeOp) (a b : label_t),
      (b ∈ ((cfg_t.mk1 e).runOps ops).succs a ↔ a ∈ ((cfg_t.mk1 e).runOps ops).preds b) ∧
      (((cfg_t.mk1 e).runOps ops).succs a).Nodup ∧
      (((cfg_t.mk1 e).runOps ops).preds a).Nodup ∧
      (b ∈ ((cfg_t.mk2 e x).runOps ops).succs a ↔ a ∈ ((cfg_t.mk2 e x).runOps ops).preds b) ∧
      (((cfg_t.mk2 e x).runOps ops).succs a).Nodup ∧
      (((cfg_t.mk2 e x).runOps ops).preds a).Nodup) ∧
    (∀ (g : cfg_t) (a b : label_t),
      (g.connect a b).connect a b = g.connect a b ∧
      ((g.connect a b).connect a b).succs a = (g.connect a b).succs a) := by
  constructor
  · intro e x ops a b
    have h1 := cfg_t.runOps_inv ops (cfg_t.mk1 e)
      (fun u v => by rw [cfg_t.mk1_succs, cfg_t.mk1_preds]; simp)
      (fun u => by rw [cfg_t.mk1_succs]; exact List.nodup_nil)
      (fun u => by rw [cfg_t.mk1_preds]; exact List.nodup_nil)
    have h2 := cfg_t.runOps_inv ops (cfg_t.mk2 e x)
      (fun u v => by rw [cfg_t.mk2_succs, cfg_t.mk2_preds]; simp)
      (fun u => by rw [cfg_t.mk2_succs]; exact List.nodup_nil)
      (fun u => by rw [cfg_t.mk2_preds]; exact List.nodup_nil)
    exact ⟨h1.1 a b, h1.2.1 a, h1.2.2 a, h2.1 a b, h2.2.1 a, h2.2.2 a⟩
  · intro g a b
    exact ⟨cfg_t.connect_idem g a b, by rw [cfg_t.connect_idem g a b]⟩

theorem assocFind_map_all (bs : List (label_t × basic_block)) (f : basic_block → basic_block)
    (l : label_t) :
    assocFind (bs.map (fun p => (p.1, f p.2))) l = (assocFind bs l).map f := by
  induction bs with
  | nil => rfl
  | cons p r ih =>
    simp only [List.map_cons]
    by_cases h : p.1 = l
    · simp [assocFind, h]
    · simp [assocFind, h, ih]

theorem assocFind_filter_ne (bs : List (label_t × basic_block)) (t l : label_t) :
    assocFind (bs.filter (fun p => p.1 != t)) l =
      if l = t then none else assocFind bs l := by
  induction bs with
  | nil =>
    simp only [List.filter_nil]
    show (none : Option basic_block) = if l = t then none else none
    split_ifs <;> rfl
  | cons p r ih =>
    by_cases hpt : p.1 = t
    · have hcond : (p.1 != t) = false := by simp [hpt]
      rw [List.filter_cons, hcond]
      simp only [Bool.false_eq_true, if_false]
      rw [ih]
      by_cases hlt : l = t
      · rw [if_pos hlt, if_pos hlt]
      · rw [if_neg hlt, if_neg hlt]
        have hpl : ¬ p.1 = l := fun h => hlt (h.symm.trans hpt)
        have he2 : assocFind (p :: r) l = if p.1 = l then some p.2 else assocFind r l := rfl
        rw [he2, if_neg hpl]
    · have hcond : (p.1 != t) = true := by simp [hpt]
      rw [List.filter_cons, hcond]
      simp only [if_true]
      have he : assocFind (p :: List.filter (fun p => p.1 != t) r) l =
          if p.1 = l then some p.2 else assocFind (List.filter (fun p => p.1 != t) r) l := rfl
      rw [he]
      by_cases hpl : p.1 = l
      · rw [if_pos hpl]
        have hlt : ¬ l = t := fun h => hpt (hpl.trans h)
        rw [if_neg hlt]
        have he2 : assocFind (p :: r) l = if p.1 = l then some p.2 else assocFind r l := rfl
        rw [he2, if_pos hpl]
      · rw [if_neg hpl, ih]
        by_cases hlt : l = t
        · rw [if_pos hlt, if_pos hlt]
        · rw [if_neg hlt, if_neg hlt]
          have he2 : assocFind (p :: r) l = if p.1 = l then some p.2 else assocFind r l := rfl
          rw [he2, if_neg hpl]

theorem assocFind_remove_map (bs : List (label_t × basic_block)) (t l : label_t) :
    assocFind (bs.map (fun p => (p.1,
      { p.2 with m_prev := remove_adjacent p.2.m_prev t,
                 m_next := remove_adjacent p.2.m_next t }))) l =
      (assocFind bs l).map (fun bb =>
        { bb with m_prev := remove_adjacent bb.m_prev t,
                  m_next := remove_adjacent bb.m_next t }) := by
  induction bs with
  | nil => rfl
  | cons p r ih =>
    simp only [List.map_cons]
    by_cases h : p.1 = l
    · simp [assocFind, h]
    · simp [assocFind, h, ih]

theorem cfg_t.find_remove (g : cfg_t) (t l : label_t) (hne : ¬ t = g.m_entry)
    (ht : (g.find t).isSome = true) :
    (g.remove t).find l = if l = t then none
      else (g.find l).map (fun bb =>
        { bb with m_prev := remove_adjacent bb.m_prev t,
                  m_next := remove_adjacent bb.m_next t }) := by
  unfold cfg_t.remove
  rw [if_neg hne, if_pos ht]
  unfold cfg_t.find
  rw [assocFind_remove_map, assocFind_filter_ne]
  split_ifs <;> rfl

theorem cfg_t.upd_entry (g : cfg_t) (t : label_t) (f : basic_block → basic_block) :
    (g.upd t f).m_entry = g.m_entry := rfl

theorem cfg_t.remove_entry (g : cfg_t) (t : label_t) : (g.remove t).m_entry = g.m_entry := by
  unfold cfg_t.remove
  split_ifs <;> rfl

theorem cfg_t.connect_entry (g : cfg_t) (a b : label_t) :
    (g.connect a b).m_entry = g.m_entry := by
  unfold cfg_t.connect
  split_ifs <;> rfl

theorem cfg_t.remove_find_entry (g : cfg_t) (t : label_t) :
    ((g.remove t).find g.m_entry).isSome = (g.find g.m_entry).isSome := by
  unfold cfg_t.remove
  split_ifs with h1 h2
  · rfl
  · unfold cfg_t.find
    rw [assocFind_remove_map, assocFind_filter_ne]
    rw [if_neg (fun he => h1 he.symm)]
    cases assocFind g.m_blocks g.m_entry <;> rfl
  · rfl

theorem cfg_t.connect_find_isSome (g : cfg_t) (a b l : label_t) :
    ((g.connect a b).find l).isSome = (g.find l).isSome := by
  unfold cfg_t.connect
  split_ifs with h
  · rw [cfg_t.find_upd_isSome, cfg_t.find_upd_isSome]
  · rfl

theorem cfg_t.merge_step_entry (g : cfg_t) (cur parent child : label_t) :
    (g.merge_step cur parent child).m_entry = g.m_entry := by
  unfold cfg_t.merge_step cfg_t.move_back_l
  rw [cfg_t.connect_entry, cfg_t.remove_entry, cfg_t.upd_entry]

theorem cfg_t.merge_step_find_entry (g : cfg_t) (cur parent child : label_t) :
    ((g.merge_step cur parent child).find g.m_entry).isSome =
      (g.find g.m_entry).isSome := by
  unfold cfg_t.merge_step
  rw [cfg_t.connect_find_isSome]
  have h1 : (g.move_back_l parent cur).m_entry = g.m_entry := rfl
  rw [← h1, cfg_t.remove_find_entry]
  rw [h1]
  unfold cfg_t.move_back_l
  rw [cfg_t.find_upd_isSome]

theorem cfg_t.move_back_find (g : cfg_t) (parent cur l : label_t) :
    (g.move_back_l parent cur).find l =
      if l = parent then (g.find l).map (fun bb =>
        { bb with m_ts := bb.m_ts ++ ((g.find cur).map basic_block.m_ts).getD [] })
      else g.find l := by
  unfold cfg_t.move_back_l
  rw [cfg_t.find_upd]

theorem cfg_t.merge_step_spec (g : cfg_t) (cur parent child : label_t)
    (bcur bpar : basic_block)
    (hentry : ¬ cur = g.m_entry) (hcp : ¬ cur = parent) (hcc : ¬ cur = child)
    (hcur : g.find cur = some bcur) (hpar : g.find parent = some bpar)
    (hchild : (g.find child).isSome = true)
    (hsp : g.succs parent = [cur]) :
    ((g.merge_step cur parent child).find cur = none) ∧
    (((g.merge_step cur parent child).find parent).map basic_block.m_ts =
      some (bpar.m_ts ++ bcur.m_ts)) ∧
    ((g.merge_step cur parent child).succs parent = [child]) := by
  have hg1cur : (g.move_back_l parent cur).find cur = some bcur := by
    rw [cfg_t.move_back_find, if_neg hcp, hcur]
  have hg1par : (g.move_back_l parent cur).find parent = some
      { bpar with m_ts := bpar.m_ts ++ bcur.m_ts } := by
    rw [cfg_t.move_back_find, if_pos rfl, hpar, hcur]
    rfl
  have hg1child : ((g.move_back_l parent cur).find child).isSome = true := by
    unfold cfg_t.move_back_l
    rw [cfg_t.find_upd_isSome]
    exact hchild
  have hg1cur_some : ((g.move_back_l parent cur).find cur).isSome = true := by
    rw [hg1cur]; rfl
  have hentry1 : ¬ cur = (g.move_back_l parent cur).m_entry := hentry
  have hg2find := fun l =>
    cfg_t.find_remove (g.move_back_l parent cur) cur l hentry1 hg1cur_some
  have hg2cur : ((g.move_back_l parent cur).remove cur).find cur = none := by
    rw [hg2find cur, if_pos rfl]
  have hg2par : ((g.move_back_l parent cur).remove cur).find parent = some
      { bpar with m_ts := bpar.m_ts ++ bcur.m_ts,
                  m_prev := remove_adjacent bpar.m_prev cur,
                  m_next := remove_adjacent bpar.m_next cur } := by
    rw [hg2find parent, if_neg (fun h => hcp h.symm), hg1par]
    rfl
  have hg2child : (((g.move_back_l parent cur).remove cur).find child).isSome = true := by
    obtain ⟨bb, hbb⟩ := Option.isSome_iff_exists.1 hg1child
    rw [hg2find child, if_neg (fun h => hcc h.symm), hbb]
    rfl
  have hg2par_some : (((g.move_back_l parent cur).remove cur).find parent).isSome = true := by
    rw [hg2par]; rfl
  have hguard : ((((g.move_back_l parent cur).remove cur).find parent).isSome &&
      (((g.move_back_l parent cur).remove cur).find child).isSome) = true := by
    rw [hg2par_some, hg2child]; rfl
  refine ⟨?_, ?_, ?_⟩
  · unfold cfg_t.merge_step
    rw [cfg_t.connect_eq _ _ _ hguard]
    rw [cfg_t.find_upd, if_neg hcc, cfg_t.find_upd, if_neg hcp]
    exact hg2cur
  · unfold cfg_t.merge_step
    rw [cfg_t.connect_eq _ _ _ hguard]
    rw [cfg_t.find_upd]
    by_cases hpc2 : parent = child
    · rw [if_pos hpc2, cfg_t.find_upd, if_pos rfl, hg2par]
      rfl
    · rw [if_neg hpc2, cfg_t.find_upd, if_pos rfl, hg2par]
      rfl
  · unfold cfg_t.merge_step
    rw [cfg_t.succs_connect _ parent child hg2par_some hg2child parent, if_pos rfl]
    have hbn : bpar.m_next = [cur] := by
      have hs := hsp
      unfold cfg_t.succs at hs
      rw [hpar] at hs
      exact hs
    have hsucc2 : ((g.move_back_l parent cur).remove cur).succs parent = [] := by
      unfold cfg_t.succs
      rw [hg2par]
      show remove_adjacent bpar.m_next cur = []
      rw [hbn]
      simp [remove_adjacent]
    rw [hsucc2]
    simp [insert_adjacent]

theorem cfg_t.merge_rec_preserves_entry (fuel : ℕ) :
    ∀ (g : cfg_t) (cur : label_t) (visited : List label_t),
      (cfg_t.merge_blocks_rec fuel g cur visited).1.m_entry = g.m_entry ∧
      ((cfg_t.merge_blocks_rec fuel g cur visited).1.find g.m_entry).isSome =
        (g.find g.m_entry).isSome := by
  induction fuel with
  | zero => intro g cur visited; exact ⟨rfl, rfl⟩
  | succ fuel ih =>
    have hfold : ∀ (L : List label_t) (g' : cfg_t) (vis : List label_t),
        ((L.foldl (fun acc n => cfg_t.merge_blocks_rec fuel acc.1 n acc.2)
            (g', vis)).1.m_entry = g'.m_entry) ∧
        (((L.foldl (fun acc n => cfg_t.merge_blocks_rec fuel acc.1 n acc.2)
            (g', vis)).1.find g'.m_entry).isSome = (g'.find g'.m_entry).isSome) := by
      intro L
      induction L with
      | nil => intro g' vis; exact ⟨rfl, rfl⟩
      | cons n L ihL =>
        intro g' vis
        simp only [List.foldl_cons]
        have h1 := ih g' n vis
        have h2 := ihL (cfg_t.merge_blocks_rec fuel g' n vis).1
          (cfg_t.merge_blocks_rec fuel g' n vis).2
        refine ⟨by rw [h2.1, h1.1], ?_⟩
        have h22 := h2.2
        rw [h1.1] at h22
        rw [h22, h1.2]
    intro g cur visited
    unfold cfg_t.merge_blocks_rec
    split_ifs with h1 h2
    · exact ⟨rfl, rfl⟩
    · have hs_entry := cfg_t.merge_step_entry g cur ((g.preds cur).headD 0)
        ((g.succs cur).headD 0)
      have hs_find := cfg_t.merge_step_find_entry g cur ((g.preds cur).headD 0)
        ((g.succs cur).headD 0)
      have hrec := ih (g.merge_step cur ((g.preds cur).headD 0) ((g.succs cur).headD 0))
        ((g.succs cur).headD 0) ((visited ++ [cur]).filter (fun x => x != cur))
      have hr2 := hrec.2
      rw [hs_entry] at hr2
      exact ⟨hrec.1.trans hs_entry, hr2.trans hs_find⟩
    · exact hfold (g.succs cur) g (visited ++ [cur])

/-- C3 counterexample: in exFork, block 1 has exactly one predecessor
(block 0) and block 0 has exactly one successor (block 1), yet merge_blocks
leaves the graph unchanged - block 1 is still present and block 0's
statements are untouched - because the code additionally requires the
merged block itself to have exactly one successor, and block 1 has two. -/
theorem C3_counterexample :
    exFork.preds 1 = [0] ∧ exFork.succs 0 = [1] ∧ ¬ (1 : label_t) = exFork.m_entry ∧
    exFork.merge_blocks = exFork ∧
    ((exFork.merge_blocks.find 1).isSome = true) ∧
    ((exFork.merge_blocks.find 0).map basic_block.m_ts = some [10]) := by
  decide

/-- C3 (amended): the merge rewrite fires only for a block with exactly one
predecessor, exactly one successor, and whose predecessor has exactly one
successor.  When it fires it appends the block's statements to the parent,
removes the block, and gives the parent the block's outgoing edge; the
entry block is never merged away (merge_blocks_rec preserves the entry
label and its presence at every fuel); and the exit block may be merged
into its sole predecessor, as the concrete chain 0 -> 1 -> 2 with exit 1
shows. -/
theorem C3_merge_amended :
    (∀ (g : cfg_t) (cur parent child : label_t) (bcur bpar : basic_block),
      ¬ cur = g.m_entry → ¬ cur = parent → ¬ cur = child →
      g.find cur = some bcur → g.find parent = some bpar →
      (g.find child).isSome = true → g.succs parent = [cur] →
      ((g.merge_step cur parent child).find cur = none) ∧
      (((g.merge_step cur parent child).find parent).map basic_block.m_ts =
        some (bpar.m_ts ++ bcur.m_ts)) ∧
      ((g.merge_step cur parent child).succs parent = [child])) ∧
    (∀ (fuel : ℕ) (g : cfg_t) (cur : label_t) (visited : List label_t),
      (cfg_t.merge_blocks_rec fuel g cur visited).1.m_entry = g.m_entry ∧
      ((cfg_t.merge_blocks_rec fuel g cur visited).1.find g.m_entry).isSome =
        (g.find g.m_entry).isSome) ∧
    (exChain.m_exit = some 1 ∧ exChain.merge_blocks.find 1 = none ∧
      (exChain.merge_blocks.find 0).map basic_block.m_ts = some [10, 11] ∧
      exChain.merge_blocks.succs 0 = [2]) := by
  refine ⟨?_, ?_, ?_⟩
  · intro g cur parent child bcur bpar h1 h2 h3 h4 h5 h6 h7
    exact cfg_t.merge_step_spec g cur parent child bcur bpar h1 h2 h3 h4 h5 h6 h7
  · intro fuel g cur visited
    exact cfg_t.merge_rec_preserves_entry fuel g cur visited
  · decide

/-- Witness for C3: the merge-rewrite clause applied to the concrete chain
0 -> 1 -> 2 at block 1, with every hypothesis discharged by evaluation. -/
theorem C3_witness :
    (exChain.merge_step 1 0 2).find 1 = none ∧
    ((exChain.merge_step 1 0 2).find 0).map basic_block.m_ts = some ([10] ++ [11]) ∧
    (exChain.merge_step 1 0 2).succs 0 = [2] :=
  C3_merge_amended.1 exChain 1 0 2 ⟨1, [11], [0], [2]⟩ ⟨0, [10], [], [1]⟩
    (by decide) (by decide) (by decide) (by decide) (by decide) (by decide) (by decide)
